import Mathlib

set_option maxHeartbeats 4000000
set_option maxRecDepth 8000

/-!
Verification of the core subsystems of the `latex-editor` repository:
the edit-grouping tracker (`editGroupsTracking`), the LaTeX-to-HTML
compiler (`latexCompiler`) and the LaTeX AST restructurer (`latexAST`).

Strings of the JavaScript source are modelled as lists of characters
(`Str`), JavaScript numbers as `Nat`/`Int`, and the handful of
JavaScript-specific behaviours (`Array.prototype.slice` with a negative
argument, `String.prototype.substring` clamping and swapping, stable
`sort`) are modelled explicitly by named helper functions.
-/

/-- Character strings, modelled as lists of characters. -/
abbrev Str := List Char

/-- Conversion from Lean string literals to the character-list model. -/
def str (s : String) : Str := s.data

/-- JavaScript `arr.slice(-n)` for a non-negative `n` : for `n = 0` the
whole array is returned (since `-0 === 0`), otherwise the last `n`
elements (all of them when `n` exceeds the length). -/
def jsSliceLast (l : List α) (n : Nat) : List α :=
  if n = 0 then l else l.drop (l.length - n)

/-- JavaScript `s.substring(a, b)`: both indices are clamped to
`[0, length]` and swapped when `a > b`. -/
def jsSubstring (s : Str) (a b : Nat) : Str :=
  let a' := min a s.length
  let b' := min b s.length
  (s.take (max a' b')).drop (min a' b')

/-- JavaScript `s.substring(a)` (to the end of the string). -/
def jsSubstringFrom (s : Str) (a : Nat) : Str :=
  s.drop (min a s.length)

/-- Whether `pat` occurs as a contiguous substring of `s`
(JavaScript `s.includes(pat)`). -/
def strIncludes (s pat : Str) : Bool := decide (pat <:+: s)

/-- JavaScript `s.endsWith(suffix)`. -/
def strEndsWith (s suffix : Str) : Bool := suffix.isSuffixOf s

/-- JavaScript `s.startsWith(prefix)`. -/
def strStartsWith (s p : Str) : Bool := p.isPrefixOf s

/-- First index at which `pat` occurs in `s` at or after `from`
(JavaScript `s.indexOf(pat, from)`); `none` when absent. -/
def strIndexOfFrom (s pat : Str) (start : Nat) : Option Nat :=
  let rec go (t : Str) (i : Nat) : Option Nat :=
    if pat.isPrefixOf t then some i
    else match t with
      | [] => none
      | _ :: rest => go rest (i + 1)
  go (s.drop start) start

/-- JavaScript whitespace trimming (`s.trim()`). -/
def strTrim (s : Str) : Str :=
  (s.dropWhile Char.isWhitespace).reverse.dropWhile Char.isWhitespace |>.reverse

/-- ASCII lower-casing (JavaScript `s.toLowerCase()` on the ASCII
heading texts this program manipulates). -/
def strLower (s : Str) : Str := s.map Char.toLower

/-! ## Edit tracker (`editGroupsTracking`)

Model of the `EditTracker` class.  `Date.now()` is impure, so the
current time is passed to `processEditorContentChanges` as an explicit
parameter; the Monaco editor/model handles are replaced by passing the
current buffer content explicitly. -/

/-- Time window for grouping edit operations (ms). -/
def EDIT_GROUPING_THRESHOLD : Int := 1000

/-- Monaco `IRange` (1-based line/column coordinates). -/
structure IRange where
  startLineNumber : Nat
  startColumn : Nat
  endLineNumber : Nat
  endColumn : Nat
deriving DecidableEq, Repr

/-- The three raw operation types. -/
inductive OpType where
  | insert
  | delete
  | replace
deriving DecidableEq, Repr

/-- Interface for tracking edit operations (`EditOperation`). -/
structure EditOperation where
  type : OpType
  range : IRange
  text : Str
  deletedText : Str
  timestamp : Int
deriving DecidableEq, Repr

/-- The three group classifications. -/
inductive GroupType where
  | insertion
  | deletion
  | replacement
deriving DecidableEq, Repr

/-- Interface for grouped edits (`EditGroup`). -/
structure EditGroup where
  operations : List EditOperation
  type : GroupType
  startTime : Int
  endTime : Int
  insertedText : Str
  deletedText : Str
deriving DecidableEq, Repr

/-- One entry of a Monaco `IModelContentChangedEvent.changes` array. -/
structure ContentChange where
  range : IRange
  rangeLength : Nat
  text : Str
deriving DecidableEq, Repr

/-- Mutable state of an `EditTracker` instance. -/
structure TrackerState where
  editGroups : List EditGroup
  previousModelContent : Str
  maxHistorySize : Nat
deriving DecidableEq, Repr

/-- `new EditTracker(editor)`: empty history, history bound 20,
`previousModelContent` initialised from the editor model. -/
def mkEditTracker (initialContent : Str) : TrackerState :=
  { editGroups := [], previousModelContent := initialContent, maxHistorySize := 20 }

/-- Helper function to extract text from a range in the previous content
(`EditTracker.extractTextFromRange`).  The surrounding `try`/`catch`
returns `""` on any error; the only reachable error is an access to line
number `0` (Monaco lines are 1-based), modelled by the explicit guard. -/
def extractTextFromRange (range : IRange) (content : Str) : Str :=
  let lines := content.splitOn (Char.ofNat 10)
  if range.startLineNumber > lines.length || range.endLineNumber > lines.length then
    []
  else if range.startLineNumber = 0 then
    []
  else
    let rec go (lineNumber : Nat) (fuel : Nat) : Str :=
      match fuel with
      | 0 => []
      | fuel + 1 =>
        if lineNumber > range.endLineNumber then []
        else
          let line := lines.getD (lineNumber - 1) []
          let piece :=
            if lineNumber = range.startLineNumber && lineNumber = range.endLineNumber then
              jsSubstring line (min (range.startColumn - 1) line.length)
                (min (range.endColumn - 1) line.length)
            else if lineNumber = range.startLineNumber then
              jsSubstringFrom line (min (range.startColumn - 1) line.length) ++ str "\n"
            else if lineNumber = range.endLineNumber then
              jsSubstring line 0 (min (range.endColumn - 1) line.length)
            else
              line ++ str "\n"
          piece ++ go (lineNumber + 1) fuel
    go range.startLineNumber (range.endLineNumber + 1 - range.startLineNumber)

/-- Check if operations are adjacent in the document
(`EditTracker.areAdjacentOperations`). -/
def areAdjacentOperations (a b : EditOperation) : Bool :=
  if ((a.range.startLineNumber : Int) - b.range.startLineNumber).natAbs > 1 then
    false
  else if a.range.startLineNumber = b.range.startLineNumber then
    ((a.range.startColumn : Int) - b.range.endColumn).natAbs ≤ 20 ||
      ((b.range.startColumn : Int) - a.range.endColumn).natAbs ≤ 20
  else
    true

/-- An entry of the deletion stack of `createEditGroup`. -/
structure DeletionEntry where
  text : Str
  position : Nat
deriving DecidableEq, Repr

/-- One iteration of the simulation loop of `createEditGroup`: an
insert appends to the simulated freshly-typed buffer
(`documentState`); a delete undoes a matching suffix of the buffer or,
when the deleted text does not match the buffer's tail, pushes it onto
the deletion stack; a replace does the same and then appends its new
text (the `documentState += op.text` after the inner if/else). -/
def simStep (st : Str × List DeletionEntry) (op : EditOperation) :
    Str × List DeletionEntry :=
  let documentState := st.1
  let deletionStack := st.2
  match op.type with
  | OpType.insert => (documentState ++ op.text, deletionStack)
  | OpType.delete =>
    if strEndsWith documentState op.deletedText then
      (documentState.take (documentState.length - op.deletedText.length), deletionStack)
    else
      (documentState, deletionStack ++ [⟨op.deletedText, op.range.startColumn⟩])
  | OpType.replace =>
    if strEndsWith documentState op.deletedText then
      (documentState.take (documentState.length - op.deletedText.length) ++ op.text,
       deletionStack)
    else
      (documentState ++ op.text,
       deletionStack ++ [⟨op.deletedText, op.range.startColumn⟩])

/-- The simulation loop of `createEditGroup`: replay the (sorted)
operations, maintaining the simulated freshly-typed buffer and the
deletion stack. -/
def simulateOps (ops : List EditOperation) : Str × List DeletionEntry :=
  ops.foldl simStep ([], [])

/-- The timestamp sort of `createEditGroup`
(`[...operations].sort((a, b) => a.timestamp - b.timestamp)`;
`Array.prototype.sort` is stable, and a stable sort is extensionally
unique, so it is modelled by the stable `insertionSort`). -/
def sortedByTimestamp (operations : List EditOperation) : List EditOperation :=
  operations.insertionSort (fun a b => a.timestamp ≤ b.timestamp)

/-- The position-ordered concatenation of the deletion stack
(`deletionStack.sort((a, b) => a.position - b.position)` followed by
`.map(item => item.text).join("")`). -/
def orderedDeletedTextOf (deletionStack : List DeletionEntry) : Str :=
  ((deletionStack.insertionSort (fun a b => a.position ≤ b.position)).map
    (fun item => item.text)).flatten

/-- The `originalContent` update of `createEditGroup` after the
simulation: when the deletion stack is nonempty and its position-sorted
concatenation is nonempty and not already contained in the initial
original content, that concatenation becomes the original content. -/
def computeOriginalContent (originalContent0 : Str)
    (deletionStack : List DeletionEntry) : Str :=
  if deletionStack.length > 0 then
    let orderedDeletedText := orderedDeletedTextOf deletionStack
    if orderedDeletedText ≠ [] && !(strIncludes originalContent0 orderedDeletedText) then
      orderedDeletedText
    else originalContent0
  else originalContent0

/-- The net inserted/deleted texts of `createEditGroup` from the
original and final contents (the four-branch comparison). -/
def netTextsOf (originalContent finalContent : Str) : Str × Str :=
  if originalContent ≠ [] && finalContent ≠ [] then
    (finalContent, originalContent)
  else if originalContent ≠ [] && finalContent = [] then
    ([], originalContent)
  else if originalContent = [] && finalContent ≠ [] then
    (finalContent, [])
  else ([], [])

/-- Create an edit group from operations (`EditTracker.createEditGroup`).
JavaScript `Array.prototype.sort` is stable, and a stable sort is extensionally unique, so it is modelled by the structurally recursive stable `insertionSort`.
The source never calls this with an empty list (§7: groups are always
seeded with at least one operation); the empty case returns a dummy
group. -/
def createEditGroup (operations : List EditOperation) : EditGroup :=
  let sortedOps := sortedByTimestamp operations
  match sortedOps with
  | [] =>
    { operations := [], type := GroupType.insertion, startTime := 0, endTime := 0,
      insertedText := [], deletedText := [] }
  | firstOp :: tailOps =>
    let originalContent0 : Str :=
      if firstOp.type = OpType.delete || firstOp.type = OpType.replace then
        firstOp.deletedText
      else []
    let sim := simulateOps (firstOp :: tailOps)
    let documentState := sim.1
    let deletionStack := sim.2
    let originalContent := computeOriginalContent originalContent0 deletionStack
    let finalContent := documentState
    let netTexts : Str × Str := netTextsOf originalContent finalContent
    let netInsertedText := netTexts.1
    let netDeletedText := netTexts.2
    let groupType :=
      if netDeletedText ≠ [] && netInsertedText ≠ [] then GroupType.replacement
      else if netDeletedText ≠ [] then GroupType.deletion
      else GroupType.insertion
    { operations := firstOp :: tailOps
      type := groupType
      startTime := firstOp.timestamp
      endTime := ((firstOp :: tailOps).getLast (List.cons_ne_nil _ _)).timestamp
      insertedText := netInsertedText
      deletedText := netDeletedText }

/-- One iteration of the `event.changes.forEach` loop of
`processEditorContentChanges`.  The loop state carries the group list
and the `lastOperation` variable; `mostRecentEditGroup` is captured once
before the loop and is NOT updated inside it (exactly as in the source,
where the `const` binding refers to the pre-event group). -/
def processOneChange (mostRecentEditGroup : Option EditGroup)
    (previousModelContent : Str) (currentTime : Int)
    (st : List EditGroup × Option EditOperation) (change : ContentChange) :
    List EditGroup × Option EditOperation :=
  let groups := st.1
  let lastOperation := st.2
  let isDelete := change.text = [] && change.rangeLength > 0
  let isInsert := change.text ≠ [] && change.rangeLength = 0
  let deletedText :=
    if isDelete || (change.text ≠ [] && change.rangeLength > 0) then
      extractTextFromRange change.range previousModelContent
    else []
  let op : EditOperation :=
    { type := if isDelete then OpType.delete
              else if isInsert then OpType.insert
              else OpType.replace
      range := change.range
      text := change.text
      deletedText := deletedText
      timestamp := currentTime }
  match lastOperation with
  | none =>
    -- No last operation, create a new group (and `return`, leaving
    -- `lastOperation` undefined for the next iteration).
    (groups ++ [createEditGroup [op]], none)
  | some lastOp =>
    let timeSinceLastOperation := op.timestamp - lastOp.timestamp
    if timeSinceLastOperation ≤ EDIT_GROUPING_THRESHOLD && areAdjacentOperations op lastOp then
      let updatedOperations :=
        (match mostRecentEditGroup with
         | some g => g.operations
         | none => []) ++ [op]
      (groups.dropLast ++ [createEditGroup updatedOperations], some op)
    else
      (groups ++ [createEditGroup [op]], some op)

/-- Process editor content changes
(`EditTracker.processEditorContentChanges`). -/
def processEditorContentChanges (state : TrackerState) (currentTime : Int)
    (changes : List ContentChange) (currentContent : Str) : TrackerState :=
  let mostRecentEditGroup := state.editGroups.getLast?
  let lastOperation0 :=
    mostRecentEditGroup.bind (fun g => g.operations.getLast?)
  let res := changes.foldl
    (processOneChange mostRecentEditGroup state.previousModelContent currentTime)
    (state.editGroups, lastOperation0)
  let groups := res.1
  let groups :=
    if groups.length > state.maxHistorySize then
      jsSliceLast groups state.maxHistorySize
    else groups
  { editGroups := groups
    previousModelContent := currentContent
    maxHistorySize := state.maxHistorySize }

/-- `EditTracker.getEditGroups`. -/
def getEditGroups (state : TrackerState) : List EditGroup := state.editGroups

/-- `EditTracker.setMaxHistorySize`. -/
def setMaxHistorySize (state : TrackerState) (size : Nat) : TrackerState :=
  let state := { state with maxHistorySize := size }
  if state.editGroups.length > state.maxHistorySize then
    { state with editGroups := jsSliceLast state.editGroups state.maxHistorySize }
  else state

/-- A change event as fed to `processEditorContentChanges`: the wall
clock time, the change list, and the buffer content after the event. -/
structure ChangeEvent where
  time : Int
  changes : List ContentChange
  currentContent : Str
deriving DecidableEq, Repr

/-- Process a sequence of change events in arrival order. -/
def processEvents (state : TrackerState) (events : List ChangeEvent) : TrackerState :=
  events.foldl (fun st e => processEditorContentChanges st e.time e.changes e.currentContent) state

/-! ## Generic scanners modelling the compiler's JavaScript regexes

Every regex used by `latexCompiler.ts` is anchored by a literal prefix
(a backslash command or a `\begin{...}` token).  A global
`String.prototype.replace` is modelled by a left-to-right scan that, on
a failed match, advances one character (as the regex engine does) and,
on a successful match, continues after the matched text.  Every match
consumes at least one character, so a fuel of `s.length` makes the
fuelled drivers total and exact. -/

/-- Literal `{` (written via its code point to keep it out of string
literals). -/
def lbraceChar : Char := Char.ofNat 123

/-- Literal `}`. -/
def rbraceChar : Char := Char.ofNat 125

/-- Newline. -/
def nlChar : Char := Char.ofNat 10

/-- Lazy scan up to the first `close` character: returns the capture
(excluding `close`) and the rest after it; fails when a character of
`stopExtra` or the end of input is reached first.  With
`stopExtra = [newline]` this is the JavaScript lazy group `(.*?)` read
up to a closing delimiter; with `stopExtra = [open brace]` it is
`([^{}]*)` read up to `}`. -/
def scanUntilChar (close : Char) (stopExtra : List Char) : Str → Option (Str × Str)
  | [] => none
  | c :: rest =>
    if c = close then some ([], rest)
    else if stopExtra.contains c then none
    else match scanUntilChar close stopExtra rest with
      | some (cap, after) => some (c :: cap, after)
      | none => none

/-- Lazy scan up to the first occurrence of the literal token `tok`:
returns the text before it and the rest after it (the JavaScript lazy
group `([\s\S]*?)` followed by a literal). -/
def scanToToken (tok : Str) : Str → Option (Str × Str)
  | [] => none
  | c :: rest =>
    if tok.isPrefixOf (c :: rest) then some ([], (c :: rest).drop tok.length)
    else match scanToToken tok rest with
      | some (cap, after) => some (c :: cap, after)
      | none => none

/-- Fuelled driver for a global regex replace: `step` recognises a
match at the head of the string and returns the emitted replacement and
the remaining input. -/
def scanRewriteFuel (step : Str → Option (Str × Str)) : Nat → Str → Str
  | 0, s => s
  | _ + 1, [] => []
  | fuel + 1, c :: rest =>
    match step (c :: rest) with
    | some (emit, after) => emit ++ scanRewriteFuel step fuel after
    | none => c :: scanRewriteFuel step fuel rest

/-- Global regex replace over `s`. -/
def scanRewrite (step : Str → Option (Str × Str)) (s : Str) : Str :=
  scanRewriteFuel step s.length s

/-- Fuelled driver collecting all matches (with their indices) of a
one-capture command regex `PRE(capture)}`, as `regex.exec` in a loop. -/
def scanMatchesFuel (pre : Str) (stopExtra : List Char) :
    Nat → Nat → Str → List (Nat × Str)
  | 0, _, _ => []
  | _ + 1, _, [] => []
  | fuel + 1, i, c :: rest =>
    if pre.isPrefixOf (c :: rest) then
      match scanUntilChar rbraceChar stopExtra ((c :: rest).drop pre.length) with
      | some (cap, after) =>
        (i, cap) :: scanMatchesFuel pre stopExtra fuel (i + pre.length + cap.length + 1) after
      | none => scanMatchesFuel pre stopExtra fuel (i + 1) rest
    else scanMatchesFuel pre stopExtra fuel (i + 1) rest

/-- All matches of `PRE(capture)}` in `s` with their start indices. -/
def scanMatches (pre : Str) (stopExtra : List Char) (s : Str) : List (Nat × Str) :=
  scanMatchesFuel pre stopExtra s.length 0 s

/-- Global replace of the literal `pat` by `repl`
(`s.replace(/literal/g, repl)`); never called with an empty pattern. -/
def replaceAllLit (pat repl : Str) (s : Str) : Str :=
  scanRewrite
    (fun t => if pat ≠ [] && pat.isPrefixOf t then some (repl, t.drop pat.length) else none) s

/-- Replace of the first occurrence of the literal `pat` only
(JavaScript `s.replace("literal", repl)`). -/
def replaceFirstLit (pat repl : Str) : Str → Str
  | [] => []
  | c :: rest =>
    if pat ≠ [] && pat.isPrefixOf (c :: rest) then repl ++ (c :: rest).drop pat.length
    else c :: replaceFirstLit pat repl rest

/-- Global replace of a one-capture command regex `PRE(capture)}` where
the replacement is built from the capture by `mk`. -/
def replaceCmdCapture (pre : Str) (stopExtra : List Char) (mk : Str → Str) (s : Str) : Str :=
  scanRewrite
    (fun t =>
      if pre.isPrefixOf t then
        match scanUntilChar rbraceChar stopExtra (t.drop pre.length) with
        | some (cap, after) => some (mk cap, after)
        | none => none
      else none) s

/-- First match of a one-capture command regex (non-global
`s.match(...)`), returning the capture. -/
def findFirstCmdCapture (pre : Str) (stopExtra : List Char) : Str → Option Str
  | [] => none
  | c :: rest =>
    if pre.isPrefixOf (c :: rest) then
      match scanUntilChar rbraceChar stopExtra ((c :: rest).drop pre.length) with
      | some (cap, _) => some cap
      | none => findFirstCmdCapture pre stopExtra rest
    else findFirstCmdCapture pre stopExtra rest

/-- Split on every occurrence of the literal `pat`
(`s.split("lit")` / `s.split(/\\\\/)`), keeping empty pieces. -/
def splitOnLitFuel (pat : Str) : Nat → Str → List Str
  | 0, s => [s]
  | _ + 1, [] => [[]]
  | fuel + 1, c :: rest =>
    if pat ≠ [] && pat.isPrefixOf (c :: rest) then
      [] :: splitOnLitFuel pat fuel ((c :: rest).drop pat.length)
    else
      match splitOnLitFuel pat fuel rest with
      | piece :: pieces => (c :: piece) :: pieces
      | [] => [[c]]

/-- Split on the literal `pat`. -/
def splitOnLit (pat : Str) (s : Str) : List Str := splitOnLitFuel pat s.length s

/-! ## LaTeX compiler (`latexCompiler`)

Model of `compileLatex` and its sub-stages.  `getCurrentDate()` reads
the wall clock, so the formatted current date is passed to the
functions that need it as an explicit `today` parameter. -/

/-- Remove LaTeX comments from the source (`removeLatexComments`).
Direct port of the character loop: an escaped `\%` is copied verbatim
(even inside a comment, as in the source), an unescaped `%` starts a
comment, a newline ends it. -/
def removeCommentsGo : Str → Bool → Str
  | [], _ => []
  | [c], inComment =>
    let inC := if c = '%' then true else inComment
    if c = nlChar then [nlChar]
    else if !inC then [c]
    else []
  | c :: c2 :: rest, inComment =>
    if c = '\\' && c2 = '%' then str "\\%" ++ removeCommentsGo rest inComment
    else
      let inC := if c = '%' then true else inComment
      if c = nlChar then nlChar :: removeCommentsGo (c2 :: rest) false
      else if !inC then c :: removeCommentsGo (c2 :: rest) inC
      else removeCommentsGo (c2 :: rest) inC

/-- `removeLatexComments`. -/
def removeLatexComments (source : Str) : Str := removeCommentsGo source false

/-- Track loaded packages (`PackageInfo`). -/
structure PackageInfo where
  name : Str
  options : Option Str
deriving DecidableEq, Repr

/-- At-head match of `\usepackage(?:\[(.*?)\])?\{(.*?)\}`: returns the
optional options capture, the raw name-list capture and the rest.  When
the optional bracket group cannot close, the regex backtracks to an
empty optional group (and then fails on `\{` at the `[`), modelled by
the fallback to `t1`. -/
def matchUsepackage (t : Str) : Option ((Option Str × Str) × Str) :=
  let pre := str "\\usepackage"
  if pre.isPrefixOf t then
    let t1 := t.drop pre.length
    let optPart : Option Str × Str :=
      match t1 with
      | c :: r1 =>
        if c = '[' then
          match scanUntilChar ']' [nlChar] r1 with
          | some (cap, after) => (some cap, after)
          | none => (none, t1)
        else (none, t1)
      | [] => (none, t1)
    match optPart.2 with
    | c :: r2 =>
      if c = lbraceChar then
        match scanUntilChar rbraceChar [nlChar] r2 with
        | some (cap2, after2) => some ((optPart.1, cap2), after2)
        | none => none
      else none
    | [] => none
  else none

/-- Extract LaTeX package information (`extractPackages`): scan all
`\usepackage` commands, split the comma-separated name list, trim each
name. -/
def extractPackagesFuel : Nat → Str → List PackageInfo
  | 0, _ => []
  | _ + 1, [] => []
  | fuel + 1, c :: rest =>
    match matchUsepackage (c :: rest) with
    | some ((opts, namesRaw), after) =>
      ((splitOnLit (str ",") namesRaw).map (fun n => ⟨strTrim n, opts⟩))
        ++ extractPackagesFuel fuel after
    | none => extractPackagesFuel fuel rest

/-- `extractPackages`. -/
def extractPackages (latex : Str) : List PackageInfo :=
  extractPackagesFuel latex.length latex

/-- Removal of all `\usepackage` commands after extraction
(`content.replace(/\\usepackage(?:\[(.*?)\])?\{(.*?)\}/g, "")`). -/
def removeUsepackage (s : Str) : Str :=
  scanRewrite (fun t => (matchUsepackage t).map (fun p => ([], p.2))) s

/-- Removal of `\documentclass(\[.*?\])?\{.*?\}`. -/
def removeDocumentclass (s : Str) : Str :=
  scanRewrite
    (fun t =>
      let pre := str "\\documentclass"
      if pre.isPrefixOf t then
        let t1 := t.drop pre.length
        let t2 :=
          match t1 with
          | c :: r1 =>
            if c = '[' then
              match scanUntilChar ']' [nlChar] r1 with
              | some (_, after) => after
              | none => t1
            else t1
          | [] => t1
        match t2 with
        | c :: r2 =>
          if c = lbraceChar then
            match scanUntilChar rbraceChar [nlChar] r2 with
            | some (_, after2) => some ([], after2)
            | none => none
          else none
        | [] => none
      else none) s

/-- The fixed LaTeX-package to MathJax-package lookup
(`generatePackageConfigJS`'s `packageMap`). -/
def packageMap : List (Str × Str) :=
  [(str "amsmath", str "ams"), (str "amssymb", str "ams"),
   (str "amsthm", str "ams"), (str "mathtools", str "ams"),
   (str "physics", str "physics"), (str "cancel", str "cancel"),
   (str "color", str "color"), (str "xcolor", str "color"),
   (str "bm", str "boldsymbol"), (str "enumerate", str "enumerate"),
   (str "algorithm", str "algorithm"), (str "algorithmic", str "algorithm"),
   (str "mhchem", str "mhchem")]

/-- Duplicate removal keeping first occurrences
(`filter((value, index, self) => self.indexOf(value) === index)`). -/
def dedupKeepFirst (l : List Str) : List Str :=
  (l.foldl (fun seen x => if seen.contains x then seen else seen ++ [x]) [])

/-- `s.join(sep)` on a list of strings. -/
def joinSep (sep : Str) : List Str → Str
  | [] => []
  | [x] => x
  | x :: xs => x ++ sep ++ joinSep sep xs

/-- Generate MathJax package configuration from LaTeX packages
(`generatePackageConfigJS`). -/
def generatePackageConfigJS (packages : List PackageInfo) : Str :=
  let supportedPackages :=
    dedupKeepFirst (packages.filterMap (fun pkg => packageMap.lookup pkg.name))
  if supportedPackages.length = 0 then []
  else str ", \x27" ++ joinSep (str "\x27, \x27") supportedPackages ++ str "\x27"

/-- Process standard LaTeX commands (`processLaTeXCommands`): five
passes of the bold/italic/emph rewrites, then the page-break
rewrites. -/
def processLaTeXCommands (content0 : Str) : Str :=
  let content := (List.range 5).foldl
    (fun content _ =>
      let content := replaceCmdCapture (str "\\textbf\x7b") [lbraceChar]
        (fun cap => str "<strong>" ++ cap ++ str "</strong>") content
      let content := replaceCmdCapture (str "\\textit\x7b") [lbraceChar]
        (fun cap => str "<em>" ++ cap ++ str "</em>") content
      replaceCmdCapture (str "\\emph\x7b") [lbraceChar]
        (fun cap => str "<em>" ++ cap ++ str "</em>") content)
    content0
  let content := replaceAllLit (str "\\newpage")
    (str "<div class=\"page-break\"></div>") content
  replaceAllLit (str "\\pagebreak") (str "<div class=\"page-break\"></div>") content

/-- A consistent section numbering system for LaTeX processing
(`HeadingInfo`). -/
structure HeadingInfo where
  text : Str
  level : Nat
  number : Str
  index : Nat
deriving DecidableEq, Repr, Inhabited

/-- Find the last heading of the specified level before the given index
(`findLastIndexBefore`); `none` models the `-1` result. -/
def findLastIndexBefore (headings : List HeadingInfo) (currentIndex : Nat)
    (level : Nat) : Option Nat :=
  let rec go : Nat → Option Nat
    | 0 => none
    | i + 1 => if (headings.getD i default).level = level then some i else go i
  go currentIndex

/-- The numbering pass of `analyzeDocumentStructure` (its
`headings.forEach` second pass): `done` is the already-numbered prefix
(the mutated `headings[0..i)`), followed by the running section,
subsection and subsubsection counters. -/
def assignNumbersGo : List HeadingInfo → Nat → Nat → Nat → List HeadingInfo →
    List HeadingInfo
  | done, _, _, _, [] => done
  | done, curSec, curSub, curSubsub, heading :: rest =>
    if heading.level = 1 then
      let curSec := curSec + 1
      assignNumbersGo (done ++ [{ heading with number := str (toString curSec) }])
        curSec 0 0 rest
    else if heading.level = 2 then
      let i := done.length
      match findLastIndexBefore done i 1 with
      | some parentSectionIndex =>
        let parentSectionNumber := (done.getD parentSectionIndex default).number
        let curSub :=
          match done.getLast? with
          | some prev =>
            if prev.level = 2 then
              if findLastIndexBefore done (i - 1) 1 = some parentSectionIndex then
                curSub + 1
              else 1
            else 1
          | none => 1
        assignNumbersGo
          (done ++ [{ heading with
            number := parentSectionNumber ++ str "." ++ str (toString curSub) }])
          curSec curSub 0 rest
      | none =>
        let curSub := curSub + 1
        assignNumbersGo
          (done ++ [{ heading with number := str "1." ++ str (toString curSub) }])
          curSec curSub 0 rest
    else if heading.level = 3 then
      let i := done.length
      match findLastIndexBefore done i 2 with
      | some parentSubsectionIndex =>
        let parentSubsectionNumber := (done.getD parentSubsectionIndex default).number
        let curSubsub :=
          match done.getLast? with
          | some prev =>
            if prev.level = 3 then
              if findLastIndexBefore done (i - 1) 2 = some parentSubsectionIndex then
                curSubsub + 1
              else 1
            else 1
          | none => 1
        assignNumbersGo
          (done ++ [{ heading with
            number := parentSubsectionNumber ++ str "." ++ str (toString curSubsub) }])
          curSec curSub curSubsub rest
      | none =>
        match findLastIndexBefore done i 1 with
        | some parentSectionIndex =>
          let parentSectionNumber := (done.getD parentSectionIndex default).number
          let curSubsub := curSubsub + 1
          assignNumbersGo
            (done ++ [{ heading with
              number := parentSectionNumber ++ str ".1." ++ str (toString curSubsub) }])
            curSec curSub curSubsub rest
        | none =>
          let curSubsub := curSubsub + 1
          assignNumbersGo
            (done ++ [{ heading with number := str "1.1." ++ str (toString curSubsub) }])
            curSec curSub curSubsub rest
    else
      assignNumbersGo (done ++ [heading]) curSec curSub curSubsub rest

/-- Analyze document structure (`analyzeDocumentStructure`): collect
all `\section{...}`, `\subsection{...}`, `\subsubsection{...}` matches
with their indices, sort by position (stably, as
`Array.prototype.sort`), then assign dotted numbers. -/
def analyzeDocumentStructure (content : Str) : List HeadingInfo :=
  let secs := (scanMatches (str "\\section\x7b") [nlChar] content).map
    (fun m => { text := m.2, level := 1, number := [], index := m.1 })
  let subs := (scanMatches (str "\\subsection\x7b") [nlChar] content).map
    (fun m => { text := m.2, level := 2, number := [], index := m.1 })
  let subsubs := (scanMatches (str "\\subsubsection\x7b") [nlChar] content).map
    (fun m => { text := m.2, level := 3, number := [], index := m.1 })
  let headings := (secs ++ subs ++ subsubs).insertionSort (fun a b => a.index ≤ b.index)
  assignNumbersGo [] 0 0 0 headings

/-- Whitespace-run collapsing (`text.replace(/\s+/g, "-")`): a maximal
whitespace run becomes one hyphen, i.e. a whitespace character is
replaced by `-` exactly when the previous character was not itself
whitespace. -/
def collapseWhitespaceGo : Bool → Str → Str
  | _, [] => []
  | prevWs, c :: rest =>
    if c.isWhitespace then
      if prevWs then collapseWhitespaceGo true rest
      else '-' :: collapseWhitespaceGo true rest
    else c :: collapseWhitespaceGo false rest

/-- `text.replace(/\s+/g, "-")`. -/
def collapseWhitespace (s : Str) : Str := collapseWhitespaceGo false s

/-- The ASCII word characters of the JavaScript `\w` class. -/
def isWordChar (c : Char) : Bool := c.isAlpha || c.isDigit || c = '_'

/-- The heading slug: collapse whitespace to hyphens, strip
non-word/non-hyphen characters, lower-case
(`text.replace(/\s+/g, "-").replace(/[^\w-]/g, "").toLowerCase()`). -/
def headingId (text : Str) : Str :=
  strLower ((collapseWhitespace text).filter (fun c => isWordChar c || c = '-'))

/-- The exact LaTeX tag text searched for a heading
(`processSectionsWithStructure`'s `tagPattern`); `none` models the
`continue` on unknown levels. -/
def sectionTagPattern (heading : HeadingInfo) : Option Str :=
  if heading.level = 1 then some (str "\\section\x7b" ++ heading.text ++ str "\x7d")
  else if heading.level = 2 then
    some (str "\\subsection\x7b" ++ heading.text ++ str "\x7d")
  else if heading.level = 3 then
    some (str "\\subsubsection\x7b" ++ heading.text ++ str "\x7d")
  else none

/-- The HTML emitted for one heading: note the level-1 tag carries the
number followed by a period, the deeper levels the bare number. -/
def headingHtmlTag (heading : HeadingInfo) : Str :=
  let id := headingId heading.text
  if heading.level = 1 then
    str "<h1 id=\"" ++ id ++ str "\"><span class=\"section-number\">" ++
      heading.number ++ str ".</span> " ++ heading.text ++ str "</h1>"
  else if heading.level = 2 then
    str "<h2 id=\"" ++ id ++ str "\"><span class=\"section-number\">" ++
      heading.number ++ str "</span> " ++ heading.text ++ str "</h2>"
  else
    str "<h3 id=\"" ++ id ++ str "\"><span class=\"section-number\">" ++
      heading.number ++ str "</span> " ++ heading.text ++ str "</h3>"

/-- Process section headings using pre-analyzed structure
(`processSectionsWithStructure`). -/
def processSectionsWithStructure (content : Str) (headings : List HeadingInfo) : Str :=
  let orderedHeadings := headings.insertionSort (fun a b => a.index ≤ b.index)
  let acc := orderedHeadings.foldl
    (fun (acc : Str × Nat) heading =>
      match sectionTagPattern heading with
      | none => acc
      | some tagPattern =>
        match strIndexOfFrom content tagPattern acc.2 with
        | none => acc
        | some tagIndex =>
          (acc.1 ++ jsSubstring content acc.2 tagIndex ++ headingHtmlTag heading,
           tagIndex + tagPattern.length))
    ([], 0)
  let result :=
    if acc.2 < content.length then acc.1 ++ jsSubstringFrom content acc.2 else acc.1
  let result := replaceCmdCapture (str "\\title\x7b") [nlChar]
    (fun cap => str "<h1 class=\"title\">" ++ cap ++ str "</h1>") result
  let result := replaceCmdCapture (str "\\author\x7b") [nlChar]
    (fun cap => str "<div class=\"author\">" ++ cap ++ str "</div>") result
  replaceCmdCapture (str "\\date\x7b") [nlChar]
    (fun cap => str "<div class=\"date\">" ++ cap ++ str "</div>") result

/-- Generate table of contents HTML (`generateTableOfContents`). -/
def generateTableOfContents (headings : List HeadingInfo) : Str :=
  if headings.length = 0 then
    str "<div class=\"toc\"><h2>Table of Contents</h2><p>No headings found.</p></div>"
  else
    let toc := str "<div class=\"toc\"><h2>Table of Contents</h2><ul>"
    let toc := headings.foldl
      (fun toc heading =>
        toc ++ str "<li class=\"toc-h" ++ str (toString heading.level) ++
          str "\">\n      <a href=\"#" ++ headingId heading.text ++
          str "\"><span class=\"section-number\">" ++ heading.number ++
          str "</span> " ++ heading.text ++ str "</a>\n    </li>")
      toc
    toc ++ str "</ul></div>"

/-- Process special LaTeX commands (`processSpecialCommands`); the
formatted current date (`getCurrentDate()`) is the `today` parameter. -/
def processSpecialCommands (today : Str) (content : Str)
    (headings : List HeadingInfo) : Str :=
  let content := replaceAllLit (str "\\today") today content
  if strIncludes content (str "\\tableofcontents") then
    replaceAllLit (str "\\tableofcontents") (generateTableOfContents headings) content
  else content

/-- Global replace of an environment
`\begin{name}([\s\S]*?)\end{name}` with `mk` applied to the body. -/
def replaceEnv (name : Str) (mk : Str → Str) (s : Str) : Str :=
  let beginTok := str "\\begin\x7b" ++ name ++ str "\x7d"
  let endTok := str "\\end\x7b" ++ name ++ str "\x7d"
  scanRewrite
    (fun t =>
      if beginTok.isPrefixOf t then
        match scanToToken endTok (t.drop beginTok.length) with
        | some (body, after) => some (mk body, after)
        | none => none
      else none) s

/-- Split on `/\\item\s+/` (the `\item` keyword followed by at least
one whitespace character, consumed greedily). -/
def splitItemsFuel : Nat → Str → List Str
  | 0, s => [s]
  | _ + 1, [] => [[]]
  | fuel + 1, c :: rest =>
    let t := c :: rest
    let isBoundary :=
      (str "\\item").isPrefixOf t &&
        match t.drop 5 with
        | w :: _ => w.isWhitespace
        | [] => false
    if isBoundary then
      [] :: splitItemsFuel fuel ((t.drop 5).dropWhile Char.isWhitespace)
    else
      match splitItemsFuel fuel rest with
      | piece :: pieces => (c :: piece) :: pieces
      | [] => [[c]]

/-- `enumContent.split(/\\item\s+/)`. -/
def splitItems (s : Str) : List Str := splitItemsFuel s.length s

/-- The list-environment body conversion shared by the `enumerate` and
`itemize` branches of `processContent`: split on `\item`, drop
whitespace-only items, wrap each trimmed item in `<li>`. -/
def listEnvHtml (openTag closeTag : Str) (envContent : Str) : Str :=
  let items := ((splitItems envContent).filter
      (fun item => (strTrim item).length > 0)).map
    (fun item => str "<li>" ++ strTrim item ++ str "</li>")
  openTag ++ joinSep (str "\n") items ++ closeTag

/-- Split on `/\n\n+/` (maximal runs of two or more newlines). -/
def splitParagraphsFuel : Nat → Str → List Str
  | 0, s => [s]
  | _ + 1, [] => [[]]
  | fuel + 1, c :: rest =>
    if c = nlChar && rest.head? = some nlChar then
      [] :: splitParagraphsFuel fuel (rest.dropWhile (fun d => d = nlChar))
    else
      match splitParagraphsFuel fuel rest with
      | piece :: pieces => (c :: piece) :: pieces
      | [] => [[c]]

/-- `content.split(/\n\n+/)`. -/
def splitParagraphs (s : Str) : List Str := splitParagraphsFuel s.length s

/-- Parse LaTeX column specification tokens
(`spec.match(/[lcr]|p\{.*?\}/g)`). -/
def columnTokensFuel : Nat → Str → List Str
  | 0, _ => []
  | _ + 1, [] => []
  | fuel + 1, c :: rest =>
    if c = 'l' || c = 'c' || c = 'r' then [c] :: columnTokensFuel fuel rest
    else if c = 'p' then
      match rest with
      | d :: r2 =>
        if d = lbraceChar then
          match scanUntilChar rbraceChar [nlChar] r2 with
          | some (cap, after) =>
            (str "p\x7b" ++ cap ++ str "\x7d") :: columnTokensFuel fuel after
          | none => columnTokensFuel fuel rest
        else columnTokensFuel fuel rest
      | [] => []
    else columnTokensFuel fuel rest

/-- Parse LaTeX column specification to determine number of columns and
alignments (`parseColumnSpec`). -/
def parseColumnSpec (spec : Str) : Nat × List Str :=
  let alignmentMatches := columnTokensFuel spec.length spec
  let count := if alignmentMatches.length = 0 then 1 else alignmentMatches.length
  let alignments := alignmentMatches.map
    (fun sp =>
      if sp = str "l" then str "left"
      else if sp = str "c" then str "center"
      else if sp = str "r" then str "right"
      else if strStartsWith sp (str "p\x7b") then str "left"
      else str "left")
  (count, alignments)

/-- The row/cell conversion of one `tabular` body
(`processTabularEnvironment`'s replacement callback). -/
def tabularHtml (columnSpec tableContent : Str) : Str :=
  let spec := parseColumnSpec columnSpec
  let count := spec.1
  let alignments := spec.2
  let rows := (splitOnLit (str "\\\\") tableContent).map strTrim
  let tableHtml := rows.foldl
    (fun tableHtml row =>
      if row = [] then tableHtml
      else if row = str "\\hline" then tableHtml ++ str "<tr class=\x27hline\x27></tr>"
      else
        let st :=
          if strStartsWith row (str "\\hline") then
            (tableHtml ++ str "<tr class=\x27hline\x27></tr>",
             strTrim (jsSubstringFrom row 6))
          else (tableHtml, row)
        let tableHtml := st.1
        let rowContent := st.2
        if rowContent = [] then tableHtml
        else
          let cells := (splitOnLit (str "&") rowContent).map strTrim
          let cellTds := (cells.enum.map
            (fun ic =>
              let align := alignments.getD ic.1 (str "left")
              str "<td style=\"text-align: " ++ align ++ str "\">" ++ ic.2 ++
                str "</td>")).flatten
          let padTds := ((List.range' cells.length (count - cells.length)).map
            (fun i =>
              let align := alignments.getD i (str "left")
              str "<td style=\"text-align: " ++ align ++ str "\"></td>")).flatten
          tableHtml ++ str "<tr>" ++ cellTds ++ padTds ++ str "</tr>")
    (str "<table>")
  tableHtml ++ str "</table>"

/-- Process the tabular environment to HTML table
(`processTabularEnvironment`). -/
def processTabularEnvironment (content : Str) : Str :=
  scanRewrite
    (fun t =>
      let beginTok := str "\\begin\x7btabular\x7d\x7b"
      let endTok := str "\\end\x7btabular\x7d"
      if beginTok.isPrefixOf t then
        match scanUntilChar rbraceChar [nlChar] (t.drop beginTok.length) with
        | some (columnSpec, t1) =>
          match scanToToken endTok t1 with
          | some (tableContent, after) =>
            some (tabularHtml columnSpec tableContent, after)
          | none => none
        | none => none
      else none) content

/-- The replacement callback for one `table` environment
(`processLatexTables`): placement attribute, `\centering`, `\caption`,
`\label`, the inner `tabular`, caption div.  The emptiness checks model
the JavaScript truthiness tests on the captures. -/
def tableEnvHtml (placement : Option Str) (tableContent0 : Str) : Str :=
  let result := str "<div class=\x27table-container\x27"
  let result :=
    match placement with
    | some p => if p ≠ [] then result ++ str " data-placement=\"" ++ p ++ str "\"" else result
    | none => result
  let result := result ++ str ">"
  let centered := strIncludes tableContent0 (str "\\centering")
  let tableContent :=
    if centered then replaceAllLit (str "\\centering") [] tableContent0
    else tableContent0
  let captionMatch := findFirstCmdCapture (str "\\caption\x7b") [nlChar] tableContent
  let tableContent :=
    match captionMatch with
    | some _ => replaceCmdCapture (str "\\caption\x7b") [nlChar] (fun _ => []) tableContent
    | none => tableContent
  let labelMatch := findFirstCmdCapture (str "\\label\x7b") [nlChar] tableContent
  let tableContent :=
    match labelMatch with
    | some _ => replaceCmdCapture (str "\\label\x7b") [nlChar] (fun _ => []) tableContent
    | none => tableContent
  let processedTable := processTabularEnvironment tableContent
  let processedTable :=
    if centered && strIncludes processedTable (str "<table") then
      replaceFirstLit (str "<table") (str "<table class=\x27centered\x27") processedTable
    else processedTable
  let result := result ++ processedTable
  let result :=
    match captionMatch with
    | some caption =>
      if caption ≠ [] then
        let idAttr :=
          match labelMatch with
          | some label => if label ≠ [] then str " id=\"" ++ label ++ str "\"" else []
          | none => []
        result ++ str "<div class=\"table-caption\"" ++ idAttr ++ str ">" ++
          caption ++ str "</div>"
      else result
    | none => result
  result ++ str "</div>"

/-- Process LaTeX tables to HTML (`processLatexTables`): first the
`table` environments (with optional placement flag), then standalone
`tabular` environments. -/
def processLatexTables (content : Str) : Str :=
  let content := scanRewrite
    (fun t =>
      let beginTok := str "\\begin\x7btable\x7d"
      let endTok := str "\\end\x7btable\x7d"
      if beginTok.isPrefixOf t then
        let t1 := t.drop beginTok.length
        let optPart : Option Str × Str :=
          match t1 with
          | c :: r1 =>
            if c = '[' then
              match scanUntilChar ']' [nlChar] r1 with
              | some (cap, after) => (some cap, after)
              | none => (none, t1)
            else (none, t1)
          | [] => (none, t1)
        match scanToToken endTok optPart.2 with
        | some (tableContent, after) =>
          some (tableEnvHtml optPart.1 tableContent, after)
        | none => none
      else none) content
  processTabularEnvironment content

/-- One paragraph of `processContent`'s final mapping. -/
def processParagraph (p : Str) : Str :=
  if strStartsWith (strTrim p) (str "<h") ||
      strStartsWith (strTrim p) (str "<div class=\"toc\"") ||
      strStartsWith (strTrim p) (str "<ol>") ||
      strStartsWith (strTrim p) (str "<ul>") ||
      strStartsWith (strTrim p) (str "<div class=\"page-break\"") then p
  else
    let processed := processLatexTables p
    let processed := replaceEnv (str "equation")
      (fun body => str "$$\n" ++ body ++ str "\n$$") processed
    let processed := replaceEnv (str "align")
      (fun body => str "$$\n\\begin\x7baligned\x7d" ++ body ++
        str "\\end\x7baligned\x7d\n$$") processed
    if !strStartsWith processed (str "<ul>") &&
        !strStartsWith processed (str "<ol>") &&
        !strStartsWith processed (str "$$") &&
        !strStartsWith processed (str "<div") &&
        !strStartsWith processed (str "<table") then
      str "<p>" ++ processed ++ str "</p>"
    else processed

/-- Process document content, preserving math expressions for MathJax
(`processContent`). -/
def processContent (content0 : Str) : Str :=
  let content := replaceEnv (str "enumerate")
    (fun enumContent => listEnvHtml (str "<ol>") (str "</ol>") enumContent) content0
  let content := replaceEnv (str "itemize")
    (fun itemizeContent => listEnvHtml (str "<ul>") (str "</ul>") itemizeContent) content
  let paragraphs := (splitParagraphs content).filter (fun p => strTrim p ≠ [])
  joinSep (str "\n") (paragraphs.map processParagraph)

/-! The HTML document shell of `compileLatex` (its template literal),
split at the two interpolation points.  Literal braces are written via
the escapes `\x7b`/`\x7d` and apostrophes via `\x27`. -/

/-- A chunk of the HTML shell. -/
def htmlShellPart1a : Str :=
  str "\n    <html>\n      <head>\n        <meta charset=\"UTF-8\">\n        <script type=\"text/javascript\" id=\"MathJax-script\" async\n          src=\"https://cdn.jsdelivr.net/npm/mathjax@3/es5/tex-mml-chtml.js\">\n        </script>\n        <style>\n          body \x7b\n            font-family: \x27Times New Roman\x27, Times, serif;\n            line-height: 1.5;\n            max-width: 800px;\n            margin: 0 auto;\n            padding: 20px;\n"

/-- A chunk of the HTML shell. -/
def htmlShellPart1b : Str :=
  str "          \x7d\n          h1 \x7b font-size: 24px; margin-top: 24px; margin-bottom: 16px; \x7d\n          h2 \x7b font-size: 20px; margin-top: 20px; margin-bottom: 14px; \x7d\n          h3 \x7b font-size: 18px; margin-top: 18px; margin-bottom: 12px; \x7d\n          p \x7b margin-bottom: 16px; \x7d\n          strong, .bold \x7b font-weight: bold; \x7d\n          em, .italic \x7b font-style: italic; \x7d\n          .mjx-chtml \x7b display: inline-block; \x7d\n"

/-- A chunk of the HTML shell. -/
def htmlShellPart1c : Str :=
  str "          .mjx-math \x7b text-align: center; margin: 1em 0; \x7d\n          .toc \x7b margin: 20px 0; \x7d\n          .toc h2 \x7b margin-top: 0; margin-bottom: 16px; \x7d\n          .toc ul \x7b list-style-type: none; margin: 0; padding: 0; \x7d\n          .toc-h1 \x7b margin-left: 0; margin-bottom: 8px; \x7d\n          .toc-h2 \x7b margin-left: 20px; margin-bottom: 6px; \x7d\n          .toc-h3 \x7b margin-left: 40px; margin-bottom: 6px; \x7d\n"

/-- A chunk of the HTML shell. -/
def htmlShellPart1d : Str :=
  str "          .toc a \x7b text-decoration: none; color: inherit; \x7d\n          .section-number \x7b margin-right: 8px; font-weight: bold; \x7d\n          \n          /* List styles */\n          ul, ol \x7b margin: 16px 0; padding-left: 30px; \x7d\n          li \x7b margin-bottom: 8px; \x7d\n          ol \x7b list-style-type: decimal; \x7d\n          ol ol \x7b list-style-type: lower-alpha; \x7d\n          ol ol ol \x7b list-style-type: lower-roman; \x7d\n          \n"

/-- A chunk of the HTML shell. -/
def htmlShellPart1e : Str :=
  str "          /* Table styles */\n          table \x7b\n            border-collapse: collapse;\n            width: 100%;\n          \x7d\n          table.centered \x7b\n            margin-left: auto;\n            margin-right: auto;\n          \x7d\n          td \x7b\n            padding: 8px;\n            border: 1px solid #ddd;\n          \x7d\n          tr.hline \x7b\n            border-bottom: 2px solid #000;\n            height: 1px;\n          \x7d\n"

/-- A chunk of the HTML shell. -/
def htmlShellPart1f : Str :=
  str "          .table-container \x7b\n            margin: 20px 0;\n            overflow-x: auto;\n          \x7d\n          .table-caption \x7b\n            text-align: center;\n            font-style: italic;\n            margin-top: 8px;\n          \x7d\n          /* Table placement styles */\n          .table-container[data-placement=\"h\"] \x7b\n            /* \x27here\x27 placement */\n            position: relative;\n          \x7d\n"

/-- A chunk of the HTML shell. -/
def htmlShellPart1g : Str :=
  str "          .table-container[data-placement=\"t\"] \x7b\n            /* \x27top\x27 placement */\n            margin-top: 0;\n          \x7d\n          .table-container[data-placement=\"b\"] \x7b\n            /* \x27bottom\x27 placement */\n            margin-top: 30px;\n          \x7d\n          .table-container[data-placement=\"p\"] \x7b\n            /* \x27page\x27 placement - a bit harder to simulate */\n            page-break-inside: avoid;\n          \x7d\n          \n"

/-- A chunk of the HTML shell. -/
def htmlShellPart1h : Str :=
  str "          /* Page break styling */\n          .page-break \x7b\n            page-break-after: always;\n            margin: 30px 0;\n            border-bottom: 1px dashed #ccc;\n          \x7d\n        </style>\n        <script>\n          window.MathJax = \x7b\n            tex: \x7b\n              inlineMath: [[\x27$\x27, \x27$\x27], [\x27\\\\(\x27, \x27\\\\)\x27]],\n              displayMath: [[\x27$$\x27, \x27$$\x27], [\x27\\\\[\x27, \x27\\\\]\x27]],\n              processEscapes: true,\n"

/-- A chunk of the HTML shell. -/
def htmlShellPart1i : Str :=
  str "              processEnvironments: true,\n              packages: [\x27base\x27, \x27ams\x27, \x27noerrors\x27, \x27noundefined\x27, \x27enumerate\x27"

/-- The shell segment assembled from its chunks. -/
def htmlShellPart1 : Str :=
  htmlShellPart1a ++ htmlShellPart1b ++ htmlShellPart1c ++ htmlShellPart1d ++ htmlShellPart1e ++ htmlShellPart1f ++ htmlShellPart1g ++ htmlShellPart1h ++ htmlShellPart1i

/-- A chunk of the HTML shell. -/
def htmlShellPart2 : Str :=
  str "]\n            \x7d,\n            options: \x7b\n              skipHtmlTags: [\x27script\x27, \x27noscript\x27, \x27style\x27, \x27textarea\x27, \x27pre\x27, \x27code\x27],\n              ignoreHtmlClass: \x27tex2jax_ignore\x27,\n              processHtmlClass: \x27tex2jax_process\x27\n            \x7d\n          \x7d;\n        </script>\n      </head>\n      <body>\n        "

/-- A chunk of the HTML shell. -/
def htmlShellPart3 : Str :=
  str "\n      </body>\n    </html>\n  "

/-- The `packageConfigJS` value interpolated into the shell by
`compileLatex` (package extraction happens on the comment-stripped
source). -/
def compiledPackageConfigJS (latex0 : Str) : Str :=
  generatePackageConfigJS (extractPackages (removeLatexComments latex0))

/-- The document body interpolated into the shell by `compileLatex`:
the preprocessing stages of `compileLatex` followed by
`processContent`.  The formatted current date is the explicit `today`
parameter. -/
def compiledBody (today : Str) (latex0 : Str) : Str :=
  let latex := removeLatexComments latex0
  let content := strTrim
    (replaceAllLit (str "\\end\x7bdocument\x7d") []
      (replaceAllLit (str "\\begin\x7bdocument\x7d") []
        (removeDocumentclass latex)))
  let content := removeUsepackage content
  let content := processLaTeXCommands content
  let headings := analyzeDocumentStructure content
  let content := processSectionsWithStructure content headings
  let content := processSpecialCommands today content headings
  processContent content

/-- Process a LaTeX document to HTML with MathJax (`compileLatex`):
the HTML shell template with the package configuration and the
processed body spliced in at its two interpolation points. -/
def compileLatex (today : Str) (latex0 : Str) : Str :=
  htmlShellPart1 ++ compiledPackageConfigJS latex0 ++ htmlShellPart2 ++
    compiledBody today latex0 ++ htmlShellPart3

/-! ## LaTeX AST (`latexAST.ts` and `findNodeAtCursor` of `AIChat.tsx`)

`LatexNode` is the tagged union produced by the external latex-utensils
parser together with the `SectionNode`s created by `restructureNodes`.
The model keeps the fields traversed by the repository's code: `kind`,
`name` (present on commands), the source `location` (of which only the
byte offsets are relevant here), `args` and `content`.  Node kinds
whose latex-utensils `content` is a string (text runs) are modelled
with an empty `content` list, on which the restructuring recursion is
the identity, and text payloads are not modelled since no modelled
operation reads them.  The `command` back-reference stored in a
`SectionNode` and the `parent` back-references added by
`addParentReferences` are not traversed by any modelled operation and
are omitted. -/

/-- A source location; `startOff`/`endOff` model
`location.start.offset` and `location.end.offset`. -/
structure Loc where
  startOff : Nat
  endOff : Nat
deriving DecidableEq, Repr

/-- A LaTeX AST node. -/
inductive LNode where
  | mk (kind : String) (name : Option String) (location : Option Loc)
      (args : List LNode) (content : List LNode)
deriving Repr

/-- The `kind` field. -/
def LNode.kind : LNode → String
  | .mk k _ _ _ _ => k

/-- The `name` field (present on command nodes). -/
def LNode.name : LNode → Option String
  | .mk _ n _ _ _ => n

/-- The `location` field. -/
def LNode.location : LNode → Option Loc
  | .mk _ _ l _ _ => l

/-- The `args` array. -/
def LNode.args : LNode → List LNode
  | .mk _ _ _ a _ => a

/-- The `content` array. -/
def LNode.content : LNode → List LNode
  | .mk _ _ _ _ c => c

/-- Whether the half-open span `[start, end)` of a location contains an
offset. -/
def spanContains (loc : Loc) (offset : Nat) : Bool :=
  loc.startOff ≤ offset && offset < loc.endOff

mutual

/-- `findNodeAtCursor` (defined inside `updateCurrentNode` in
`AIChat.tsx`): if the node's span contains the cursor offset, descend
into the first containing content child, else the first containing args
child, else return the node itself; `none` when the node has no
location or its span misses the offset. -/
def findNodeAtCursor (offset : Nat) : LNode → Option LNode
  | .mk kind nm loc args content =>
    match loc with
    | none => none
    | some l =>
      if l.startOff ≤ offset && offset < l.endOff then
        match findNodeInList offset content with
        | some n => some n
        | none =>
          match findNodeInList offset args with
          | some n => some n
          | none => some (.mk kind nm loc args content)
      else none

/-- The `for (const child of ...)` loops of `findNodeAtCursor`, and the
`for (const node of documentAST.content)` loop of `updateCurrentNode`:
first non-null result wins. -/
def findNodeInList (offset : Nat) : List LNode → Option LNode
  | [] => none
  | child :: rest =>
    match findNodeAtCursor offset child with
    | some n => some n
    | none => findNodeInList offset rest

end

/-- `parent.content.push(child)`. -/
def pushContent (parent child : LNode) : LNode :=
  match parent with
  | .mk k nm loc args content => .mk k nm loc args (content ++ [child])

/-- The `SectionNode` object literal created by `restructureNodes` for
a heading command: the command's `args` and `location`, empty
`content`; the `command` back-reference is omitted (see above). -/
def mkSectionNode (kindStr : String) (node : LNode) : LNode :=
  .mk kindStr none node.location node.args []

mutual

/-- The loop of `restructureNodes`.  `lastSeen` tracks the value of the
loop variable `node` from the latest iteration: the final flush
(source lines 116-118) reads `node` outside the scope of its `let`
declaration, which under legacy `var` hoisting denotes the last
iterated node (under ES2015 scoping that line throws instead; either
way the still-open subsubsection is pushed into nothing). -/
def restructGo (currentSection currentSubsection currentSubsubsection : Option LNode)
    (result : List LNode) (lastSeen : Option LNode) :
    List LNode → List LNode
  | [] =>
    -- if (currentSection && currentSubsection && currentSubsubsection)
    --   currentSubsubsection.content.push(node)   [stale `node`]
    let _currentSubsubsection :=
      match currentSection, currentSubsection, currentSubsubsection, lastSeen with
      | some _, some _, some ss, some n => some (pushContent ss n)
      | _, _, _, _ => currentSubsubsection
    -- if (currentSection && currentSubsection)
    --   currentSection.content.push(currentSubsection)
    let currentSection :=
      match currentSection, currentSubsection with
      | some sec, some sub => some (pushContent sec sub)
      | _, _ => currentSection
    -- if (currentSection) result.push(currentSection)
    match currentSection with
    | some sec => result ++ [sec]
    | none => result
  | node :: rest =>
    if node.kind = "command" then
      if node.name = some "section" then
        let currentSubsection :=
          match currentSection, currentSubsection, currentSubsubsection with
          | some _, some sub, some ss => some (pushContent sub ss)
          | _, _, _ => currentSubsection
        let currentSection :=
          match currentSection, currentSubsection with
          | some sec, some sub => some (pushContent sec sub)
          | _, _ => currentSection
        let result :=
          match currentSection with
          | some sec => result ++ [sec]
          | none => result
        restructGo (some (mkSectionNode "section" node)) none none result (some node) rest
      else if node.name = some "subsection" then
        let currentSubsection :=
          match currentSection, currentSubsection, currentSubsubsection with
          | some _, some sub, some ss => some (pushContent sub ss)
          | _, _, _ => currentSubsection
        let currentSection :=
          match currentSection, currentSubsection with
          | some sec, some sub => some (pushContent sec sub)
          | _, _ => currentSection
        restructGo currentSection (some (mkSectionNode "subsection" node)) none result
          (some node) rest
      else if node.name = some "subsubsection" then
        let currentSubsection :=
          match currentSection, currentSubsection, currentSubsubsection with
          | some _, some sub, some ss => some (pushContent sub ss)
          | _, _, _ => currentSubsection
        restructGo currentSection currentSubsection
          (some (mkSectionNode "subsubsection" node)) result (some node) rest
      else
        match currentSubsubsection with
        | some ss =>
          restructGo currentSection currentSubsection (some (pushContent ss node)) result
            (some node) rest
        | none =>
          match currentSubsection with
          | some sub =>
            restructGo currentSection (some (pushContent sub node)) currentSubsubsection
              result (some node) rest
          | none =>
            match currentSection with
            | some sec =>
              restructGo (some (pushContent sec node)) currentSubsection
                currentSubsubsection result (some node) rest
            | none =>
              restructGo currentSection currentSubsection currentSubsubsection
                (result ++ [node]) (some node) rest
    else
      -- node.content = restructureNodes(node.content)
      let node' := restructNode node
      match currentSubsubsection with
      | some ss =>
        restructGo currentSection currentSubsection (some (pushContent ss node')) result
          (some node') rest
      | none =>
        match currentSubsection with
        | some sub =>
          restructGo currentSection (some (pushContent sub node')) currentSubsubsection
            result (some node') rest
        | none =>
          match currentSection with
          | some sec =>
            restructGo (some (pushContent sec node')) currentSubsection
              currentSubsubsection result (some node') rest
          | none =>
            restructGo currentSection currentSubsection currentSubsubsection
              (result ++ [node']) (some node') rest

/-- The recursion of `restructureNodes` into a non-command node's
content array (`node.content = restructureNodes(node.content)`). -/
def restructNode : LNode → LNode
  | .mk k nm loc args content =>
    LNode.mk k nm loc args (restructGo none none none [] none content)

end

/-- `restructureNodes`: walk the flat node sequence maintaining at most
one open section, subsection and subsubsection. -/
def restructureNodes (nodes : List LNode) : List LNode :=
  restructGo none none none [] none nodes


mutual

/-- `updateSectionLocations`: recurse into `content` first (bottom-up),
then give every heading node with a nonempty content list the span from
its first located child's start to its last located child's end.
Property presence (`"location" in child`) is modelled by
`location.isSome`. -/
def updateSectionLocations : List LNode → List LNode
  | [] => []
  | node :: rest => updateSectionNode node :: updateSectionLocations rest

/-- The per-node body of the `updateSectionLocations` loop. -/
def updateSectionNode : LNode → LNode
  | .mk k nm loc args content =>
    let content := updateSectionLocations content
    if (k = "section" || k = "subsection" || k = "subsubsection") &&
        content.length > 0 then
      match content.find? (fun child => child.location.isSome),
          (content.reverse).find? (fun child => child.location.isSome) with
      | some firstNode, some lastNode =>
        match firstNode.location, lastNode.location with
        | some lf, some ll => .mk k nm (some ⟨lf.startOff, ll.endOff⟩) args content
        | _, _ => .mk k nm loc args content
      | _, _ => .mk k nm loc args content
    else .mk k nm loc args content

end

/-- The AST post-processing of `parseLatex`: the external latex-utensils
parse is the capability boundary, so the model takes its output node
list and applies `restructureNodes` followed by
`updateSectionLocations` (the subsequent `addParentReferences` pass
only sets the untraversed `parent` back-references). -/
def parseLatexContent (nodes : List LNode) : List LNode :=
  updateSectionLocations (restructureNodes nodes)

/-! ## Specification-side helper definitions and concrete inputs -/

/-- Whether a node's own located span contains the offset. -/
def nodeLocContains (n : LNode) (offset : Nat) : Bool :=
  match n.location with
  | some l => spanContains l offset
  | none => false

/-- No located immediate child (content or args) of `n` has a span
containing the offset. -/
def noLocatedChildContains (n : LNode) (offset : Nat) : Bool :=
  (n.content ++ n.args).all (fun c => !nodeLocContains c offset)

mutual

/-- All nodes of a subtree paired with their depth (roots at depth 1),
content children listed before args children. -/
def nodesAtDepth (d : Nat) : LNode → List (LNode × Nat)
  | .mk k nm loc args content =>
    (LNode.mk k nm loc args content, d) ::
      (nodesAtDepthList (d + 1) content ++ nodesAtDepthList (d + 1) args)

/-- `nodesAtDepth` over a node list. -/
def nodesAtDepthList (d : Nat) : List LNode → List (LNode × Nat)
  | [] => []
  | n :: rest => nodesAtDepth d n ++ nodesAtDepthList d rest

end

/-- The offset lies outside the span of every node of the forest. -/
def offsetOutsideAll (roots : List LNode) (offset : Nat) : Bool :=
  (nodesAtDepthList 1 roots).all (fun p => !nodeLocContains p.1 offset)

/-- The spec's compiler example input
`\section{A}\subsection{B}\subsection{C}\section{D}`. -/
def c1input : Str :=
  str "\\section\x7bA\x7d\\subsection\x7bB\x7d\\subsection\x7bC\x7d\\section\x7bD\x7d"

/-- The same four headings preceded by a fifth heading
`\section{X}`. -/
def c1inputPrefixed : Str := str "\\section\x7bX\x7d" ++ c1input

/-- The spec's comment-stripping example input `100\% done % note`. -/
def c6input : Str := str "100\\% done % note"

/-- The spec's tabular example input. -/
def c9input : Str :=
  str "\\begin\x7btabular\x7d\x7blcr\x7d a & b & c \\\\ \\hline \\end\x7btabular\x7d"

/-- Insert `"a"` at (1,1) at t = 0 (buffer afterwards: `"a"`). -/
def c4event1 : ChangeEvent := ⟨0, [⟨⟨1, 1, 1, 1⟩, 0, str "a"⟩], str "a"⟩

/-- Insert `"b"` at (1,2) at t = 500. -/
def c4event2near : ChangeEvent := ⟨500, [⟨⟨1, 2, 1, 2⟩, 0, str "b"⟩], str "ab"⟩

/-- Insert `"b"` at (1,2) at t = 1500. -/
def c4event2far : ChangeEvent := ⟨1500, [⟨⟨1, 2, 1, 2⟩, 0, str "b"⟩], str "ab"⟩

/-- Insert `"hello"` at (1,1) at t = 0. -/
def c5event1 : ChangeEvent := ⟨0, [⟨⟨1, 1, 1, 1⟩, 0, str "hello"⟩], str "hello"⟩

/-- Delete that `"hello"` (range (1,1)-(1,6)) at t = 500. -/
def c5event2 : ChangeEvent := ⟨500, [⟨⟨1, 1, 1, 6⟩, 5, str ""⟩], str ""⟩

/-- With prior buffer `"123456789A\nxB"`: delete `"A"` at (1,10) at
t = 0. -/
def c10event1 : ChangeEvent := ⟨0, [⟨⟨1, 10, 1, 11⟩, 1, str ""⟩], str "123456789\nxB"⟩

/-- Then delete `"B"` at (2,2) at t = 500 (an adjacent line within the
grouping threshold, so the two deletes share one group). -/
def c10event2 : ChangeEvent := ⟨500, [⟨⟨2, 2, 2, 3⟩, 1, str ""⟩], str "123456789\nx"⟩

/-- The parsed command node `\section` spanning offsets [0, 11). -/
def c2sectionCmd : LNode := .mk "command" (some "section") (some ⟨0, 11⟩) [] []

/-- The parsed command node `\subsection` spanning [11, 25). -/
def c2subsectionCmd : LNode := .mk "command" (some "subsection") (some ⟨11, 25⟩) [] []

/-- The parsed command node `\subsubsection` spanning [25, 42). -/
def c2subsubsectionCmd : LNode :=
  .mk "command" (some "subsubsection") (some ⟨25, 42⟩) [] []

/-- A text node spanning [42, 46), following the subsubsection. -/
def c2textNode : LNode := .mk "text.string" none (some ⟨42, 46⟩) [] []

/-- A childless top-level node with span [0, 10). -/
def c7nodeA : LNode := .mk "a" none (some ⟨0, 10⟩) [] []

/-- A node with span [0, 10) nested inside `c7nodeB`. -/
def c7nodeC : LNode := .mk "c" none (some ⟨0, 10⟩) [] []

/-- A second top-level node with span [0, 10) containing `c7nodeC`. -/
def c7nodeB : LNode := .mk "b" none (some ⟨0, 10⟩) [] [c7nodeC]

/-- The argument group `{A}` of a `\section{A}` command, at [8, 11). -/
def c8argGroup : LNode := .mk "arg.group" none (some ⟨8, 11⟩) [] []

/-- The `\section{A}` command node at [0, 11) with its argument
group. -/
def c8sectionCmd : LNode := .mk "command" (some "section") (some ⟨0, 11⟩) [c8argGroup] []

/-- A text node at [12, 16) forming the section's body. -/
def c8textNode : LNode := .mk "text.string" none (some ⟨12, 16⟩) [] []


/-- Reference substring scanner: `pat` occurs as a contiguous
substring (at some start position) of the scanned string. -/
def containsB (pat : Str) : Str → Bool
  | [] => pat.isPrefixOf []
  | c :: rest => pat.isPrefixOf (c :: rest) || containsB pat rest

/-- Chunked absence check: scan a chunk list left to right, testing
each window-extended chunk for an occurrence of `pat` and carrying only
the last `pat.length - 1` characters across every chunk boundary, so an
occurrence straddling a boundary is still seen while no intermediate
string longer than a chunk plus a window is ever built. -/
def chunkedNotContains (pat : Str) : Str → List Str → Bool
  | w, [] => !containsB pat w
  | w, c :: rest =>
    !containsB pat (w ++ c) &&
      chunkedNotContains pat ((w ++ c).drop ((w ++ c).length + 1 - pat.length)) rest

/-! ### Well-formedness predicates for the AST passes (C8)

`inWfNode` states what the external latex-utensils parser guarantees
about its output nodes: every node is located with an ordered span, no
node carries one of the heading kinds created only by
`restructureNodes`, and the `args` and `content` children form
left-to-right chains of disjoint spans inside the parent span.
`midWfNode` is the invariant of `restructureNodes` output (heading
nodes hold a chain of children after the command token; other nodes
hold a chain inside their own span), `outerEnd` bounds the span a node
can acquire in `updateSectionLocations`, and `outWfNode` states the
claim: ordered spans, content children inside the parent span, and
args children inside the parent span except under the heading kinds.
`stInv`/`stCursor` package the loop invariant of `restructGo`. -/

def isHeadingKind (k : String) : Bool :=
  k = "section" || k = "subsection" || k = "subsubsection"

def startO (n : LNode) : Nat :=
  match n.location with
  | some l => l.startOff
  | none => 0

def endO (n : LNode) : Nat :=
  match n.location with
  | some l => l.endOff
  | none => 0

def locWithin : Option Loc → Loc → Bool
  | none, _ => true
  | some c, l => decide (l.startOff ≤ c.startOff) && decide (c.endOff ≤ l.endOff)

def lastEnd : Nat → List LNode → Nat
  | b, [] => b
  | _, n :: rest => lastEnd (endO n) rest

mutual

def outerEnd : LNode → Nat
  | .mk k _ loc _ content =>
    if isHeadingKind k then
      outerEndFrom (match loc with | some l => l.endOff | none => 0) content
    else
      match loc with | some l => l.endOff | none => 0

def outerEndFrom : Nat → List LNode → Nat
  | d, [] => d
  | _, c :: rest => outerEndFrom (outerEnd c) rest

end

mutual

def inWfNode : LNode → Bool
  | .mk k _ loc args content =>
    match loc with
    | none => false
    | some l =>
      !(isHeadingKind k) && decide (l.startOff ≤ l.endOff) &&
      inChain l.startOff args && decide (lastEnd l.startOff args ≤ l.endOff) &&
      inChain l.startOff content && decide (lastEnd l.startOff content ≤ l.endOff)

def inChain : Nat → List LNode → Bool
  | _, [] => true
  | b, n :: rest => decide (b ≤ startO n) && inWfNode n && inChain (endO n) rest

end

mutual

def midWfNode : Nat → LNode → Bool
  | b, .mk k _ loc args content =>
    match loc with
    | none => false
    | some l =>
      decide (b ≤ l.startOff) && decide (l.startOff ≤ l.endOff) &&
      inChain l.startOff args && decide (lastEnd l.startOff args ≤ l.endOff) &&
      (if isHeadingKind k then
        midChain l.endOff content
      else
        midChain l.startOff content && decide (outerEndFrom l.startOff content ≤ l.endOff))

def midChain : Nat → List LNode → Bool
  | _, [] => true
  | b, n :: rest => midWfNode b n && midChain (outerEnd n) rest

end

def optOuter : Nat → Option LNode → Nat
  | c, none => c
  | _, some s => outerEnd s

def optInv : Nat → Option LNode → Bool
  | _, none => true
  | c, some s => midWfNode c s && isHeadingKind s.kind

def locChain : Nat → List LNode → Bool
  | _, [] => true
  | b, n :: rest =>
    match n.location with
    | none => false
    | some l => decide (b ≤ l.startOff) && decide (l.startOff ≤ l.endOff) && locChain l.endOff rest

def newLocOk (b e : Nat) (n : LNode) : Bool :=
  match n.location with
  | none => false
  | some l => decide (b ≤ l.startOff) && decide (l.startOff ≤ l.endOff) && decide (l.endOff ≤ e)

mutual

def outWfNode : LNode → Bool
  | .mk k _ loc args content =>
    (match loc with
     | none => true
     | some l =>
       decide (l.startOff ≤ l.endOff) &&
       content.all (fun c => locWithin c.location l) &&
       (isHeadingKind k || args.all (fun a => locWithin a.location l))) &&
    outWfList args && outWfList content

def outWfList : List LNode → Bool
  | [] => true
  | n :: rest => outWfNode n && outWfList rest

end

def stCursor (B : Nat) (result : List LNode) (sec sub subsub : Option LNode) : Nat :=
  optOuter (optOuter (optOuter (outerEndFrom B result) sec) sub) subsub

def stInv (B : Nat) (result : List LNode) (sec sub subsub : Option LNode) : Bool :=
  midChain B result &&
  optInv (outerEndFrom B result) sec &&
  optInv (optOuter (outerEndFrom B result) sec) sub &&
  optInv (optOuter (optOuter (outerEndFrom B result) sec) sub) subsub

/-- The group list built by `processEditorContentChanges` BEFORE the
history trim: the same `changes` fold as in the function body, without
the final `maxHistorySize` length check.  New groups are appended at
the tail (and merges rebuild the tail group), so this list is in
arrival order with the oldest group first. -/
def processEditorContentChangesUntrimmed (state : TrackerState) (currentTime : Int)
    (changes : List ContentChange) : List EditGroup :=
  let mostRecentEditGroup := state.editGroups.getLast?
  let lastOperation0 :=
    mostRecentEditGroup.bind (fun g => g.operations.getLast?)
  (changes.foldl
    (processOneChange mostRecentEditGroup state.previousModelContent currentTime)
    (state.editGroups, lastOperation0)).1

/-! ## Theorems -/

/-- C4: two inserts at the same location 500 ms apart merge into one
edit group with net inserted text `"ab"`; the same two inserts 1500 ms
apart (beyond the 1000 ms threshold) form two separate groups with net
inserted texts `"a"` and `"b"`. -/
theorem C4_grouping_threshold :
    (processEvents (mkEditTracker []) [c4event1, c4event2near]).editGroups.map
        (fun g => g.insertedText) = [str "ab"] ∧
      (processEvents (mkEditTracker []) [c4event1, c4event2far]).editGroups.map
        (fun g => g.insertedText) = [str "a", str "b"] := by
  constructor <;> rfl

/-- C5: inserting `"hello"` and then deleting that same `"hello"`
within the grouping threshold at an adjacent position yields exactly
one retained group, of kind `insertion`, whose net inserted and net
deleted texts are both empty. -/
theorem C5_self_cancelling_group :
    (processEvents (mkEditTracker []) [c5event1, c5event2]).editGroups.map
        (fun g => (g.type, g.insertedText, g.deletedText)) =
      [(GroupType.insertion, [], [])] := by
  rfl

/-- C3 counterexample: after `setMaxHistorySize(0)` on a tracker with
one group, the history still has one group (`slice(-0)` returns the
whole array), so `getEditGroups().length ≤ k` fails at `k = 0`. -/
theorem C3_counterexample :
    ¬ (setMaxHistorySize (processEvents (mkEditTracker []) [c4event1]) 0).editGroups.length ≤ 0 := by
  decide

/-- C10 counterexample: two deletions on consecutive lines (delete
`"A"` at line 1 column 10, then delete `"B"` at line 2 column 2, both
left in the original buffer, so both are stacked) produce
`netDeletedText = "BA"`: the stack is sorted by start column only, so
the line-2 deletion at column 2 sorts before the line-1 deletion at
column 10, which is not left-to-right document order (`"AB"`). -/
theorem C10_counterexample :
    (processEvents (mkEditTracker (str "123456789A\nxB"))
        [c10event1, c10event2]).editGroups.map (fun g => g.deletedText) = [str "BA"] ∧
      (processEvents (mkEditTracker (str "123456789A\nxB"))
          [c10event1, c10event2]).editGroups.map
        (fun g => g.operations.map
          (fun op => (op.deletedText, op.range.startLineNumber, op.range.startColumn))) =
          [[(str "A", 1, 10), (str "B", 2, 2)]] ∧
      str "BA" ≠ str "AB" := by
  refine ⟨by rfl, by rfl, by decide⟩

/-- C2: the final flush of `restructureNodes` loses an open
subsubsection.  On the parser output of
`\section{..}\subsection{..}\subsubsection{..}text`, all three headings
are open at end of input; instead of attaching the subsubsection to the
subsection, the flush pushes the stale loop variable (the text node)
into the subsubsection's own content and drops the subsubsection, so
the result contains the section and subsection but neither the
subsubsection nor the text node. -/
theorem C2_final_flush_loses_subsubsection :
    restructureNodes [c2sectionCmd, c2subsectionCmd, c2subsubsectionCmd, c2textNode] =
      [LNode.mk "section" none (some ⟨0, 11⟩) []
        [LNode.mk "subsection" none (some ⟨11, 25⟩) [] []]] := by
  rfl

/-- C7 counterexample: `findNodeAtCursor` does not return the most
deeply nested containing node.  In the forest `[c7nodeA, c7nodeB]` at
offset 0, the loop returns the childless top-level node `c7nodeA`
(kind `"a"`, the only node of that kind, at depth 1), although
`c7nodeC` (inside `c7nodeB`) also contains the offset at depth 2. -/
theorem C7_counterexample :
    findNodeInList 0 [c7nodeA, c7nodeB] = some c7nodeA ∧
      nodesAtDepthList 1 [c7nodeA, c7nodeB] =
        [(c7nodeA, 1), (c7nodeB, 1), (c7nodeC, 2)] ∧
      (nodesAtDepthList 1 [c7nodeA, c7nodeB]).filter
          (fun p => decide (p.1.kind = "a")) = [(c7nodeA, 1)] ∧
      nodeLocContains c7nodeC 0 = true ∧
      (2 : Nat) ≠ 1 := by
  refine ⟨by rfl, by rfl, by rfl, by rfl, by decide⟩

/-- C8 counterexample: after restructuring and span recomputation on
the parser output of `\section{A} text` (the section command at
[0, 11) with its argument group `{A}` at [8, 11), followed by a text
node at [12, 16)), the section's span is recomputed to [12, 16) — the
hull of its content — while its args child keeps its span [8, 11),
which lies outside the parent's recomputed span. -/
theorem C8_counterexample :
    parseLatexContent [c8sectionCmd, c8textNode] =
      [LNode.mk "section" none (some ⟨12, 16⟩) [c8argGroup] [c8textNode]] ∧
      ((12 : Nat) ≤ 8 ∧ (11 : Nat) ≤ 16 → False) := by
  refine ⟨by rfl, by decide⟩

/-- `containsB` decides the contiguous-substring relation. -/
theorem containsB_iff_occurs (pat : Str) : ∀ s : Str, containsB pat s = true ↔ pat <:+: s := by
  intro s
  induction s with
  | nil => simp [containsB, List.isPrefixOf_iff_prefix]
  | cons c rest ih =>
    rw [containsB, Bool.or_eq_true, List.isPrefixOf_iff_prefix, ih, List.infix_cons_iff]

/-- The model's `strIncludes` agrees with the scanner `containsB`. -/
theorem strIncludes_eq_containsB (s pat : Str) : strIncludes s pat = containsB pat s := by
  cases hc : containsB pat s
  · have hn : ¬ pat <:+: s := fun hin => by
      simp [(containsB_iff_occurs pat s).2 hin] at hc
    simp [strIncludes, hn]
  · simp [strIncludes, (containsB_iff_occurs pat s).1 hc]

/-- An occurrence in the left part is an occurrence in the whole. -/
theorem containsB_append_left (pat a b : Str) (h : containsB pat a = true) :
    containsB pat (a ++ b) = true := by
  rw [containsB_iff_occurs] at h ⊢
  obtain ⟨u, v, huv⟩ := h
  exact ⟨u, v ++ b, by rw [← huv]; simp⟩

/-- An occurrence in the right part is an occurrence in the whole. -/
theorem containsB_append_right (pat a b : Str) (h : containsB pat b = true) :
    containsB pat (a ++ b) = true := by
  rw [containsB_iff_occurs] at h ⊢
  obtain ⟨u, v, huv⟩ := h
  exact ⟨a ++ u, v, by rw [← huv]; simp⟩

/-- Any occurrence in `a ++ b` lies either wholly inside `a` or inside
the window made of the last `pat.length - 1` characters of `a` followed
by `b`. -/
theorem containsB_append_split (pat : Str) :
    ∀ a b : Str, containsB pat (a ++ b) = true →
      containsB pat a = true ∨
        containsB pat (a.drop (a.length + 1 - pat.length) ++ b) = true := by
  intro a
  induction a with
  | nil =>
    intro b h
    right
    simpa using h
  | cons c rest ih =>
    intro b h
    rw [List.cons_append, containsB, Bool.or_eq_true] at h
    rcases h with hpre | hrec
    · by_cases hlen : pat.length ≤ (c :: rest).length
      · left
        have hp : pat <+: (c :: rest) ++ b := by
          rw [List.isPrefixOf_iff_prefix] at hpre
          simpa using hpre
        have hpcr : pat <+: (c :: rest) :=
          List.prefix_of_prefix_length_le hp (List.prefix_append _ _) (by simpa using hlen)
        rw [containsB, Bool.or_eq_true]
        exact Or.inl (List.isPrefixOf_iff_prefix.2 hpcr)
      · right
        have hidx : (c :: rest).length + 1 - pat.length = 0 := by
          have hl := List.length_cons c rest
          omega
        rw [hidx, List.drop_zero, List.cons_append, containsB, Bool.or_eq_true]
        exact Or.inl hpre
    · rcases ih b hrec with hL | hR
      · left
        rw [containsB, Bool.or_eq_true]
        exact Or.inr hL
      · by_cases hlen : pat.length ≤ rest.length + 1
        · right
          have hidx : (c :: rest).length + 1 - pat.length = (rest.length + 1 - pat.length) + 1 := by
            have hl := List.length_cons c rest
            omega
          rw [hidx, List.drop_succ_cons]
          exact hR
        · right
          have hidx : (c :: rest).length + 1 - pat.length = 0 := by
            have hl := List.length_cons c rest
            omega
          have hidx' : rest.length + 1 - pat.length = 0 := by omega
          rw [hidx', List.drop_zero] at hR
          rw [hidx, List.drop_zero, List.cons_append, containsB, Bool.or_eq_true]
          exact Or.inr hR

/-- Soundness of the chunked absence check: when the chunked scan finds
no occurrence, the flattened string has none. -/
theorem chunkedNotContains_sound (pat : Str) :
    ∀ (chunks : List Str) (w : Str), chunkedNotContains pat w chunks = true →
      containsB pat (w ++ chunks.flatten) = false := by
  intro chunks
  induction chunks with
  | nil =>
    intro w h
    rw [chunkedNotContains, Bool.not_eq_true'] at h
    simpa using h
  | cons c rest ih =>
    intro w h
    rw [chunkedNotContains, Bool.and_eq_true, Bool.not_eq_true'] at h
    obtain ⟨h1, h2⟩ := h
    have hrec := ih _ h2
    rw [List.flatten_cons, ← List.append_assoc]
    rcases hcon : containsB pat (w ++ c ++ rest.flatten) with _ | _
    · rfl
    · rcases containsB_append_split pat (w ++ c) rest.flatten hcon with hA | hB
      · rw [h1] at hA
        exact absurd hA (by simp)
      · rw [hrec] at hB
        exact absurd hB (by simp)

/-- Absence transfer from a chunk decomposition to the whole string. -/
theorem not_contains_of_chunks (pat : Str) (chunks : List Str) (s : Str)
    (hs : s = chunks.flatten) (h : chunkedNotContains pat [] chunks = true) :
    containsB pat s = false := by
  subst hs
  simpa using chunkedNotContains_sound pat chunks [] h

/-- C9: compiling `\begin{tabular}{lcr} a & b & c \\ \hline
\end{tabular}` produces a body that is exactly one `<table>` with one
data row of three cells aligned left/center/right followed by one
hline marker row, and that table appears verbatim in the compiled HTML
document.  (The input contains no `\today`, so the compile result does
not depend on the date parameter, here fixed to `"X"`.) -/
theorem C9_tabular :
    compiledBody (str "X") c9input =
      str "<table><tr><td style=\"text-align: left\">a</td><td style=\"text-align: center\">b</td><td style=\"text-align: right\">c</td></tr><tr class=\x27hline\x27></tr></table>" ∧
    strIncludes (compileLatex (str "X") c9input)
      (str "<table><tr><td style=\"text-align: left\">a</td><td style=\"text-align: center\">b</td><td style=\"text-align: right\">c</td></tr><tr class=\x27hline\x27></tr></table>") = true := by
  have hbody : compiledBody (str "X") c9input =
      str "<table><tr><td style=\"text-align: left\">a</td><td style=\"text-align: center\">b</td><td style=\"text-align: right\">c</td></tr><tr class=\x27hline\x27></tr></table>" := by decide
  refine ⟨hbody, ?_⟩
  rw [strIncludes_eq_containsB, containsB_iff_occurs]
  exact ⟨htmlShellPart1 ++ compiledPackageConfigJS c9input ++ htmlShellPart2,
    htmlShellPart3, by simp [compileLatex, hbody, List.append_assoc]⟩

/-- Occurrence transfer from the compiled body into the full compiled
document. -/
theorem containsB_compile (pat today latex0 : Str)
    (h : containsB pat (compiledBody today latex0) = true) :
    containsB pat (compileLatex today latex0) = true := by
  rw [containsB_iff_occurs] at h ⊢
  obtain ⟨u, v, huv⟩ := h
  refine ⟨htmlShellPart1 ++ compiledPackageConfigJS latex0 ++ htmlShellPart2 ++ u,
    v ++ htmlShellPart3, ?_⟩
  simp only [compileLatex, ← huv]
  simp [List.append_assoc]

/-- Absence transfer for the full compiled document through its chunk
decomposition. -/
theorem not_contains_compile (pat today latex0 bodyLit cfgLit : Str)
    (hbody : compiledBody today latex0 = bodyLit)
    (hcfg : compiledPackageConfigJS latex0 = cfgLit)
    (h : chunkedNotContains pat []
      [htmlShellPart1a, htmlShellPart1b, htmlShellPart1c, htmlShellPart1d,
       htmlShellPart1e, htmlShellPart1f, htmlShellPart1g, htmlShellPart1h,
       htmlShellPart1i, cfgLit, htmlShellPart2, bodyLit, htmlShellPart3] = true) :
    containsB pat (compileLatex today latex0) = false := by
  apply not_contains_of_chunks pat _ _ ?_ h
  simp [compileLatex, htmlShellPart1, hbody, hcfg, List.append_assoc]

/-- C1 counterexample: on the spec's own example input the h1 for `A`
carries a `section-number` span containing `1.` (number plus a trailing
period), and no `section-number` span in the whole document contains
exactly `1`; moreover, in an input that merely contains the four
headings in order (here preceded by one further section heading `X`),
`A` is numbered `2.`, so the universally quantified claim fails on both
counts. -/
theorem C1_counterexample :
    strIncludes (compileLatex (str "X") c1input)
      (str "<h1 id=\"a\"><span class=\"section-number\">1.</span> A</h1>") = true ∧
    strIncludes (compileLatex (str "X") c1input)
      (str "class=\"section-number\">1</span>") = false ∧
    strIncludes (compileLatex (str "X") c1inputPrefixed)
      (str "<h1 id=\"a\"><span class=\"section-number\">2.</span> A</h1>") = true := by
  refine ⟨?_, ?_, ?_⟩
  · rw [strIncludes_eq_containsB]
    exact containsB_compile _ _ _ (by decide)
  · rw [strIncludes_eq_containsB]
    exact not_contains_compile (str "class=\"section-number\">1</span>") (str "X") c1input
      (str "<h1 id=\"a\"><span class=\"section-number\">1.</span> A</h1><h2 id=\"b\"><span class=\"section-number\">1.1</span> B</h2><h2 id=\"c\"><span class=\"section-number\">1.2</span> C</h2><h1 id=\"d\"><span class=\"section-number\">2.</span> D</h1>")
      [] (by decide) (by decide) (by decide)
  · rw [strIncludes_eq_containsB]
    exact containsB_compile _ _ _ (by decide)

/-- C1 (amended): compiling the example input emits exactly the four
headings in document order, numbered 1, 1.1, 1.2, 2, as h1/h2 elements;
each h2's `section-number` span contains exactly the number, while each
h1's span contains the number followed by a period (`1.`, `2.`).  The
four tags appear verbatim and adjacently in the compiled document.
(The input contains no `\today`, so the result does not depend on the
date parameter, fixed here to `"X"`.) -/
theorem C1_section_numbering :
    compiledBody (str "X") c1input =
      str "<h1 id=\"a\"><span class=\"section-number\">1.</span> A</h1><h2 id=\"b\"><span class=\"section-number\">1.1</span> B</h2><h2 id=\"c\"><span class=\"section-number\">1.2</span> C</h2><h1 id=\"d\"><span class=\"section-number\">2.</span> D</h1>" ∧
    strIncludes (compileLatex (str "X") c1input)
      (str "<h1 id=\"a\"><span class=\"section-number\">1.</span> A</h1><h2 id=\"b\"><span class=\"section-number\">1.1</span> B</h2><h2 id=\"c\"><span class=\"section-number\">1.2</span> C</h2><h1 id=\"d\"><span class=\"section-number\">2.</span> D</h1>") = true := by
  have hbody : compiledBody (str "X") c1input =
      str "<h1 id=\"a\"><span class=\"section-number\">1.</span> A</h1><h2 id=\"b\"><span class=\"section-number\">1.1</span> B</h2><h2 id=\"c\"><span class=\"section-number\">1.2</span> C</h2><h1 id=\"d\"><span class=\"section-number\">2.</span> D</h1>" := by decide
  refine ⟨hbody, ?_⟩
  rw [strIncludes_eq_containsB]
  exact containsB_compile _ _ _ (by decide)

/-- C6 counterexample: the compiled HTML document string does not
contain the literal text `100% done`: the escaped percent is preserved
verbatim as the two characters backslash-percent (the body is
`<p>100\% done</p>`), rendered as a percent sign only later by the
math engine's `processEscapes`. -/
theorem C6_counterexample :
    strIncludes (compileLatex (str "X") c6input) (str "100% done") = false := by
  rw [strIncludes_eq_containsB]
  exact not_contains_compile (str "100% done") (str "X") c6input
    (str "<p>100\\% done</p>") [] (by decide) (by decide) (by decide)

/-- C6 (amended): compiling `100\% done % note` yields a document
whose body contains `100\% done` with the escaped percent preserved
verbatim (rendered as `%` by the math engine), and the unescaped
comment `% note` is stripped: it occurs nowhere in the compiled
document. -/
theorem C6_comment_stripping :
    strIncludes (compileLatex (str "X") c6input) (str "100\\% done") = true ∧
    strIncludes (compileLatex (str "X") c6input) (str "% note") = false := by
  constructor
  · rw [strIncludes_eq_containsB]
    exact containsB_compile _ _ _ (by decide)
  · rw [strIncludes_eq_containsB]
    exact not_contains_compile (str "% note") (str "X") c6input
      (str "<p>100\\% done</p>") [] (by decide) (by decide) (by decide)

/-- One processed change event leaves at most `maxHistorySize` groups,
whenever the bound is at least 1. -/
theorem processEditorContentChanges_length_le (st : TrackerState) (t : Int)
    (cs : List ContentChange) (cc : Str) (h : 1 ≤ st.maxHistorySize) :
    (processEditorContentChanges st t cs cc).editGroups.length ≤ st.maxHistorySize := by
  have h0 : st.maxHistorySize ≠ 0 := by omega
  simp only [processEditorContentChanges]
  split
  · next hgt =>
    simp only [jsSliceLast, if_neg h0, List.length_drop]
    omega
  · next hle => omega

/-- Processing an event does not change the history bound. -/
theorem processEditorContentChanges_maxHistorySize (st : TrackerState) (t : Int)
    (cs : List ContentChange) (cc : Str) :
    (processEditorContentChanges st t cs cc).maxHistorySize = st.maxHistorySize := by
  simp only [processEditorContentChanges]

/-- The trimmed history of one processed event is the untrimmed fold
result, cut to the last `maxHistorySize` groups when it is longer. -/
theorem processEditorContentChanges_editGroups (st : TrackerState) (t : Int)
    (cs : List ContentChange) (cc : Str) :
    (processEditorContentChanges st t cs cc).editGroups =
      if (processEditorContentChangesUntrimmed st t cs).length > st.maxHistorySize then
        jsSliceLast (processEditorContentChangesUntrimmed st t cs) st.maxHistorySize
      else processEditorContentChangesUntrimmed st t cs := rfl

/-- Eviction is oldest-first: for a positive bound, the history kept
after one processed event equals the untrimmed group list with its
OLDEST (front) groups dropped - a suffix holding the newest groups. -/
theorem processEditorContentChanges_evict (st : TrackerState) (t : Int)
    (cs : List ContentChange) (cc : Str) (h : 1 ≤ st.maxHistorySize) :
    (processEditorContentChanges st t cs cc).editGroups =
      (processEditorContentChangesUntrimmed st t cs).drop
        ((processEditorContentChangesUntrimmed st t cs).length - st.maxHistorySize) := by
  rw [processEditorContentChanges_editGroups st t cs cc]
  split
  · next hgt => rw [jsSliceLast, if_neg (by omega)]
  · next hle =>
    have h0 : (processEditorContentChangesUntrimmed st t cs).length - st.maxHistorySize = 0 := by
      omega
    rw [h0, List.drop_zero]

/-- `setMaxHistorySize k` for `k ≥ 1` likewise keeps the newest `k`
groups, dropping the oldest from the front. -/
theorem setMaxHistorySize_evict (st : TrackerState) (k : Nat) (h : 1 ≤ k) :
    (setMaxHistorySize st k).editGroups =
      st.editGroups.drop (st.editGroups.length - k) := by
  simp only [setMaxHistorySize]
  split
  · next hgt => rw [jsSliceLast, if_neg (by omega)]
  · next hle =>
    have h0 : st.editGroups.length - k = 0 := by
      omega
    rw [h0, List.drop_zero]

/-- C3 (amended): for every tracker state whose history bound is at
least 1, after any nonempty sequence of processed change events the
history length stays within the bound; each event keeps exactly the
untrimmed group list with its oldest (front) groups dropped, so
eviction is oldest-first; and `setMaxHistorySize k` for `k ≥ 1`
immediately trims the history to at most `k` groups, again keeping the
newest `k` and dropping the oldest.  (The bound `k = 0` is excluded:
`slice(-0)` returns the whole array, see the counterexample.) -/
theorem C3_history_bound :
    (∀ (st : TrackerState) (e : ChangeEvent) (events : List ChangeEvent),
        1 ≤ st.maxHistorySize →
        (processEvents st (e :: events)).editGroups.length ≤ st.maxHistorySize) ∧
    (∀ (st : TrackerState) (t : Int) (cs : List ContentChange) (cc : Str),
        1 ≤ st.maxHistorySize →
        (processEditorContentChanges st t cs cc).editGroups =
          (processEditorContentChangesUntrimmed st t cs).drop
            ((processEditorContentChangesUntrimmed st t cs).length - st.maxHistorySize)) ∧
    (∀ (st : TrackerState) (k : Nat), 1 ≤ k →
        (setMaxHistorySize st k).editGroups.length ≤ k) ∧
    (∀ (st : TrackerState) (k : Nat), 1 ≤ k →
        (setMaxHistorySize st k).editGroups =
          st.editGroups.drop (st.editGroups.length - k)) := by
  refine ⟨?_, processEditorContentChanges_evict, ?_, setMaxHistorySize_evict⟩
  · intro st e events
    induction events generalizing st e with
    | nil =>
      intro h
      exact processEditorContentChanges_length_le st e.time e.changes e.currentContent h
    | cons e2 rest ih =>
      intro h
      have hmax := processEditorContentChanges_maxHistorySize st e.time e.changes e.currentContent
      have hrec := ih (processEditorContentChanges st e.time e.changes e.currentContent) e2
        (by rw [hmax]; exact h)
      rw [hmax] at hrec
      exact hrec
  · intro st k h
    have h0 : k ≠ 0 := by omega
    simp only [setMaxHistorySize]
    split
    · next hgt =>
      simp only [jsSliceLast, if_neg h0, List.length_drop]
      omega
    · next hle =>
      exact (by omega : st.editGroups.length ≤ k)

/-- Witness for C3 (amended): concrete instances of all four parts; the
`setMaxHistorySize 1` instance starts from a two-group history, so the
trim actually evicts the older group. -/
theorem C3_history_bound_witness :
    ((processEvents (mkEditTracker []) [c4event1]).editGroups.length ≤
        (mkEditTracker []).maxHistorySize) ∧
    ((processEditorContentChanges (mkEditTracker []) 0 c4event1.changes []).editGroups =
        (processEditorContentChangesUntrimmed (mkEditTracker []) 0 c4event1.changes).drop
          ((processEditorContentChangesUntrimmed (mkEditTracker []) 0
              c4event1.changes).length - (mkEditTracker []).maxHistorySize)) ∧
    ((setMaxHistorySize (processEvents (mkEditTracker []) [c4event1, c4event2far])
        1).editGroups.length ≤ 1) ∧
    ((setMaxHistorySize (processEvents (mkEditTracker []) [c4event1, c4event2far])
        1).editGroups =
      (processEvents (mkEditTracker []) [c4event1, c4event2far]).editGroups.drop
        ((processEvents (mkEditTracker []) [c4event1, c4event2far]).editGroups.length - 1)) :=
  ⟨C3_history_bound.1 (mkEditTracker []) c4event1 [] (by decide),
   C3_history_bound.2.1 (mkEditTracker []) 0 c4event1.changes [] (by decide),
   C3_history_bound.2.2.1 (processEvents (mkEditTracker []) [c4event1, c4event2far]) 1
     (by decide),
   C3_history_bound.2.2.2 (processEvents (mkEditTracker []) [c4event1, c4event2far]) 1
     (by decide)⟩

/-- The empty string is a suffix of every string, so a deletion of
empty text always takes the undo branch of the simulation. -/
theorem strEndsWith_nil (s : Str) : strEndsWith s [] = true := by
  simp [strEndsWith, List.isSuffixOf_iff_suffix]

/-- One simulation step either leaves the deletion stack unchanged or
appends the operation's (necessarily nonempty) deleted text. -/
theorem simStep_stack (st : Str × List DeletionEntry) (op : EditOperation) :
    (simStep st op).2 = st.2 ∨
      ((simStep st op).2 = st.2 ++ [⟨op.deletedText, op.range.startColumn⟩] ∧
        op.deletedText ≠ []) := by
  rcases hop : op.type with _ | _ | _
  · left
    simp [simStep, hop]
  · by_cases hs : strEndsWith st.1 op.deletedText = true
    · left
      simp [simStep, hop, hs]
    · refine Or.inr ⟨by simp [simStep, hop, hs], ?_⟩
      intro hd
      rw [hd] at hs
      exact hs (strEndsWith_nil st.1)
  · by_cases hs : strEndsWith st.1 op.deletedText = true
    · left
      simp [simStep, hop, hs]
    · refine Or.inr ⟨by simp [simStep, hop, hs], ?_⟩
      intro hd
      rw [hd] at hs
      exact hs (strEndsWith_nil st.1)

/-- Folding the simulation step over any operation list only appends
(nonempty-text) entries to the deletion stack. -/
theorem foldl_simStep_stack (l : List EditOperation) :
    ∀ st : Str × List DeletionEntry, ∃ extra,
      (l.foldl simStep st).2 = st.2 ++ extra ∧ ∀ e ∈ extra, e.text ≠ [] := by
  induction l with
  | nil =>
    intro st
    exact ⟨[], by simp, by simp⟩
  | cons op rest ih =>
    intro st
    obtain ⟨extra, hx, hne⟩ := ih (simStep st op)
    rcases simStep_stack st op with hsame | ⟨happ, hdne⟩
    · exact ⟨extra, by rw [List.foldl_cons, hx, hsame], hne⟩
    · refine ⟨⟨op.deletedText, op.range.startColumn⟩ :: extra, ?_, ?_⟩
      · rw [List.foldl_cons, hx, happ]
        simp
      · intro e he
        rcases List.mem_cons.mp he with rfl | he2
        · exact hdne
        · exact hne e he2

/-- Every entry of the final deletion stack has nonempty text. -/
theorem simulateOps_stack_texts (ops : List EditOperation) :
    ∀ e ∈ (simulateOps ops).2, e.text ≠ [] := by
  obtain ⟨extra, hx, hne⟩ := foldl_simStep_stack ops ([], [])
  intro e he
  have hx2 : (simulateOps ops).2 = extra := by simpa using hx
  exact hne e (hx2 ▸ he)

/-- When the first operation deletes or replaces nonempty original
text, that text is the first entry pushed onto the deletion stack. -/
theorem simulateOps_head_entry (firstOp : EditOperation) (rest : List EditOperation)
    (hty : firstOp.type = OpType.delete ∨ firstOp.type = OpType.replace)
    (hne : firstOp.deletedText ≠ []) :
    ∃ extra, (simulateOps (firstOp :: rest)).2 =
        (⟨firstOp.deletedText, firstOp.range.startColumn⟩ : DeletionEntry) :: extra ∧
      ∀ e ∈ extra, e.text ≠ [] := by
  have hsx : strEndsWith ([] : Str) firstOp.deletedText = false := by
    cases hd : firstOp.deletedText with
    | nil => exact absurd hd hne
    | cons c cs => simp [strEndsWith, List.isSuffixOf_iff_suffix]
  have hfirst : (simStep ([], []) firstOp).2 =
      [(⟨firstOp.deletedText, firstOp.range.startColumn⟩ : DeletionEntry)] := by
    rcases hty with h | h <;> simp [simStep, h, hsx]
  obtain ⟨extra, hx, hnex⟩ := foldl_simStep_stack rest (simStep ([], []) firstOp)
  refine ⟨extra, ?_, hnex⟩
  have hsim : (simulateOps (firstOp :: rest)).2 =
      (rest.foldl simStep (simStep ([], []) firstOp)).2 := rfl
  rw [hsim, hx, hfirst]
  simp

/-- The length of the position-ordered concatenation is the sum of the
stacked text lengths (the sort is a permutation). -/
theorem orderedDeletedTextOf_length (stack : List DeletionEntry) :
    (orderedDeletedTextOf stack).length = (stack.map (fun e => e.text.length)).sum := by
  rw [orderedDeletedTextOf, List.length_flatten, List.map_map]
  exact ((List.perm_insertionSort (fun a b : DeletionEntry => a.position ≤ b.position)
    stack).map (fun e => e.text.length)).sum_eq

/-- Sorting a single entry is the identity. -/
theorem orderedDeletedTextOf_singleton (e : DeletionEntry) :
    orderedDeletedTextOf [e] = e.text := by
  simp [orderedDeletedTextOf, List.insertionSort, List.orderedInsert]

/-- A nonempty stack of nonempty texts concatenates to a nonempty
string. -/
theorem orderedDeletedTextOf_ne_nil (stack : List DeletionEntry) (hstack : stack ≠ [])
    (hall : ∀ e ∈ stack, e.text ≠ []) : orderedDeletedTextOf stack ≠ [] := by
  intro hcon
  have hlen := congrArg List.length hcon
  rw [orderedDeletedTextOf_length] at hlen
  rcases stack with _ | ⟨e, rest⟩
  · exact hstack rfl
  · have he := hall e (by simp)
    have hz : e.text.length = 0 := by
      simp only [List.map_cons, List.sum_cons, List.length_nil] at hlen
      omega
    exact he (List.length_eq_zero.mp hz)


/-- The four-branch net-text comparison always returns the final
content as net inserted text and the original content as net deleted
text. -/
theorem netTextsOf_eq (o f : Str) : netTextsOf o f = (f, o) := by
  by_cases ho : o = [] <;> by_cases hf : f = [] <;> simp [netTextsOf, ho, hf]

/-- The original content computed by `createEditGroup` always equals
the position-sorted concatenation of the deletion stack: when the
stack is empty both are empty (the first operation's deleted text,
when a delete/replace, must have matched the empty buffer tail, i.e.
be empty); when the concatenation is included in the initial original
content, the stack is the single entry pushed by the first operation
and the two coincide. -/
theorem computeOriginalContent_concat (firstOp : EditOperation)
    (tailOps : List EditOperation) :
    computeOriginalContent
      (if firstOp.type = OpType.delete || firstOp.type = OpType.replace
        then firstOp.deletedText else [])
      (simulateOps (firstOp :: tailOps)).2 =
      orderedDeletedTextOf (simulateOps (firstOp :: tailOps)).2 := by
  set o0 : Str := (if firstOp.type = OpType.delete || firstOp.type = OpType.replace
    then firstOp.deletedText else []) with ho0
  by_cases hstack : (simulateOps (firstOp :: tailOps)).2 = []
  · rw [hstack]
    have horig0 : o0 = [] := by
      by_cases hty : firstOp.type = OpType.delete ∨ firstOp.type = OpType.replace
      · by_cases hd : firstOp.deletedText = []
        · rcases hty with h | h <;> simp [ho0, h, hd]
        · exfalso
          obtain ⟨extra, hx, -⟩ := simulateOps_head_entry firstOp tailOps hty hd
          rw [hstack] at hx
          exact List.cons_ne_nil _ _ hx.symm
      · have h1 : ¬ firstOp.type = OpType.delete := fun hh => hty (Or.inl hh)
        have h2 : ¬ firstOp.type = OpType.replace := fun hh => hty (Or.inr hh)
        simp [ho0, h1, h2]
    rw [horig0]
    simp [computeOriginalContent, orderedDeletedTextOf, List.insertionSort]
  · have hconne := orderedDeletedTextOf_ne_nil _ hstack
      (simulateOps_stack_texts (firstOp :: tailOps))
    have hlen : (simulateOps (firstOp :: tailOps)).2.length > 0 :=
      List.length_pos.mpr hstack
    unfold computeOriginalContent
    rw [if_pos hlen]
    by_cases hinc : strIncludes o0
        (orderedDeletedTextOf (simulateOps (firstOp :: tailOps)).2) = true
    · rw [if_neg (by simp [hinc])]
      have hin : orderedDeletedTextOf (simulateOps (firstOp :: tailOps)).2 <:+: o0 :=
        of_decide_eq_true hinc
      have ho0ne : o0 ≠ [] := by
        intro h0
        rw [h0] at hin
        exact hconne (List.eq_nil_of_infix_nil hin)
      have hty : firstOp.type = OpType.delete ∨ firstOp.type = OpType.replace := by
        by_contra hty
        have h1 : ¬ firstOp.type = OpType.delete := fun hh => hty (Or.inl hh)
        have h2 : ¬ firstOp.type = OpType.replace := fun hh => hty (Or.inr hh)
        exact ho0ne (by simp [ho0, h1, h2])
      have ho0eq : o0 = firstOp.deletedText := by
        rcases hty with h | h <;> simp [ho0, h]
      obtain ⟨extra, hx, hnex⟩ :=
        simulateOps_head_entry firstOp tailOps hty (fun hd => ho0ne (ho0eq.trans hd))
      have hle := hin.length_le
      have hsum := orderedDeletedTextOf_length (simulateOps (firstOp :: tailOps)).2
      have hextra : extra = [] := by
        rcases extra with _ | ⟨e, es⟩
        · rfl
        · exfalso
          have he := hnex e (by simp)
          have he1 : 1 ≤ e.text.length := by
            rcases het : e.text with _ | _
            · exact absurd het he
            · simp
          rw [hx] at hsum hle
          simp only [List.map_cons, List.sum_cons] at hsum
          rw [ho0eq] at hle
          omega
      rw [hextra] at hx
      rw [hx, orderedDeletedTextOf_singleton, ho0eq]
    · rw [if_pos (by simp [hconne, hinc])]

/-- C10 (amended): for every nonempty operation list, the group's
`insertedText` equals the final state of the simulated freshly-typed
buffer, and its `deletedText` equals the concatenation of the stacked
deletions sorted (stably) by start COLUMN — which coincides with
left-to-right document order only when the stacked operations lie on a
single line — the concatenation being empty exactly when the stack
stays empty (the first operation's deleted text is then necessarily
empty, so the claim's fallback clause is vacuous). -/
theorem C10_net_effect (ops : List EditOperation) (h : ops ≠ []) :
    (createEditGroup ops).insertedText = (simulateOps (sortedByTimestamp ops)).1 ∧
      (createEditGroup ops).deletedText =
        orderedDeletedTextOf (simulateOps (sortedByTimestamp ops)).2 := by
  obtain ⟨firstOp, tailOps, hsort⟩ : ∃ f t, sortedByTimestamp ops = f :: t := by
    rcases hs : sortedByTimestamp ops with _ | ⟨f, t⟩
    · exfalso
      have hlen := List.length_insertionSort
        (fun a b : EditOperation => a.timestamp ≤ b.timestamp) ops
      rw [show ops.insertionSort (fun a b : EditOperation => a.timestamp ≤ b.timestamp) =
        sortedByTimestamp ops from rfl, hs] at hlen
      exact h (List.length_eq_zero.mp hlen.symm)
    · exact ⟨f, t, rfl⟩
  rw [hsort]
  simp only [createEditGroup, hsort, computeOriginalContent_concat, netTextsOf_eq]
  exact ⟨trivial, trivial⟩

/-- Witness for C10 (amended) at a concrete single-insert group. -/
theorem C10_net_effect_witness :
    (createEditGroup [⟨OpType.insert, ⟨1, 1, 1, 1⟩, str "a", [], 0⟩]).insertedText =
        (simulateOps (sortedByTimestamp
          [⟨OpType.insert, ⟨1, 1, 1, 1⟩, str "a", [], 0⟩])).1 ∧
      (createEditGroup [⟨OpType.insert, ⟨1, 1, 1, 1⟩, str "a", [], 0⟩]).deletedText =
        orderedDeletedTextOf (simulateOps (sortedByTimestamp
          [⟨OpType.insert, ⟨1, 1, 1, 1⟩, str "a", [], 0⟩])).2 :=
  C10_net_effect [⟨OpType.insert, ⟨1, 1, 1, 1⟩, str "a", [], 0⟩] (by decide)

theorem findNodeAtCursor_eq_none_iff (offset : Nat) (n : LNode) :
    findNodeAtCursor offset n = none ↔ nodeLocContains n offset = false := by
  cases n with
  | mk kd nm loc args content =>
    cases loc with
    | none => simp [findNodeAtCursor, nodeLocContains, LNode.location]
    | some l =>
      simp only [nodeLocContains, LNode.location, spanContains]
      constructor
      · intro hfind
        by_contra hct
        rw [Bool.not_eq_false] at hct
        rcases hc : findNodeInList offset content with _ | m1 <;>
          rcases ha : findNodeInList offset args with _ | m2 <;>
          simp [findNodeAtCursor, hc, ha, hct] at hfind
      · intro hfalse
        simp [findNodeAtCursor, hfalse]

theorem findNodeInList_eq_none_iff (offset : Nat) (l : List LNode) :
    findNodeInList offset l = none ↔ ∀ c ∈ l, findNodeAtCursor offset c = none := by
  induction l with
  | nil => simp [findNodeInList]
  | cons c rest ih =>
    rcases hc : findNodeAtCursor offset c with _ | m
    · simp [findNodeInList, hc, ih]
    · simp [findNodeInList, hc]

theorem findNodeInList_sound (offset : Nat) (P : LNode → Prop) :
    ∀ (l : List LNode),
      (∀ c ∈ l, ∀ m, findNodeAtCursor offset c = some m → P m) →
      ∀ m, findNodeInList offset l = some m → P m := by
  intro l
  induction l with
  | nil =>
    intro _ m hm
    simp [findNodeInList] at hm
  | cons c rest ih =>
    intro H m hm
    rcases hc : findNodeAtCursor offset c with _ | m1
    · simp only [findNodeInList, hc] at hm
      exact ih (fun c2 hc2 => H c2 (by simp [hc2])) m hm
    · simp only [findNodeInList, hc] at hm
      cases hm
      exact H c (by simp) m hc

theorem findNodeAtCursor_sound (offset : Nat) : ∀ (k : Nat) (n : LNode), sizeOf n ≤ k →
    ∀ m, findNodeAtCursor offset n = some m →
      nodeLocContains m offset = true ∧ noLocatedChildContains m offset = true := by
  intro k
  induction k with
  | zero =>
    intro n hsz
    exfalso
    cases n
    simp at hsz
  | succ k ih =>
    intro n hsz m hfind
    cases n with
    | mk kd nm loc args content =>
      have hchild : ∀ c, c ∈ content ∨ c ∈ args → sizeOf c ≤ k := by
        intro c hc
        have h1 : sizeOf c < sizeOf (LNode.mk kd nm loc args content) := by
          rcases hc with hc | hc
          · have h2 := List.sizeOf_lt_of_mem hc
            simp only [LNode.mk.sizeOf_spec]
            omega
          · have h2 := List.sizeOf_lt_of_mem hc
            simp only [LNode.mk.sizeOf_spec]
            omega
        omega
      cases loc with
      | none => simp [findNodeAtCursor] at hfind
      | some l =>
        by_cases hcont : (l.startOff ≤ offset && offset < l.endOff) = true
        · rcases hc : findNodeInList offset content with _ | m1
          · rcases ha : findNodeInList offset args with _ | m2
            · have hm : LNode.mk kd nm (some l) args content = m := by
                simp [findNodeAtCursor, hcont, hc, ha] at hfind
                exact hfind
              subst hm
              refine ⟨by simp [nodeLocContains, LNode.location, spanContains, hcont], ?_⟩
              rw [noLocatedChildContains, List.all_eq_true]
              intro c hcmem
              have hnone : findNodeAtCursor offset c = none := by
                rcases List.mem_append.mp (by simpa [LNode.content, LNode.args] using hcmem) with h | h
                · exact (findNodeInList_eq_none_iff offset content).mp hc c h
                · exact (findNodeInList_eq_none_iff offset args).mp ha c h
              have hfalse := (findNodeAtCursor_eq_none_iff offset c).mp hnone
              simp [hfalse]
            · have hm : m2 = m := by
                simp [findNodeAtCursor, hcont, hc, ha] at hfind
                exact hfind
              subst hm
              exact findNodeInList_sound offset _ args
                (fun c hcm mm hmm => ih c (hchild c (Or.inr hcm)) mm hmm) m2 ha
          · have hm : m1 = m := by
              simp [findNodeAtCursor, hcont, hc] at hfind
              exact hfind
            subst hm
            exact findNodeInList_sound offset _ content
              (fun c hcm mm hmm => ih c (hchild c (Or.inl hcm)) mm hmm) m1 hc
        · simp [findNodeAtCursor, hcont] at hfind

theorem self_mem_nodesAtDepthList (d : Nat) (l : List LNode) (c : LNode) (hc : c ∈ l) :
    (c, d) ∈ nodesAtDepthList d l := by
  induction l with
  | nil => cases hc
  | cons x rest ih =>
    rcases List.mem_cons.mp hc with rfl | hc2
    · cases c with
      | mk kd nm loc args content =>
        simp [nodesAtDepthList, nodesAtDepth]
    · cases x with
      | mk kd nm loc args content =>
        simp only [nodesAtDepthList]
        exact List.mem_append.mpr (Or.inr (ih hc2))

/-- C7 (amended): for every AST node and byte offset, when findNodeAtCursor returns a
node, that node is a located node whose half-open span [start.offset, end.offset)
contains the offset and none of its located immediate children (content or args)
contains the offset, i.e. it is innermost along the greedy descent that tries content
children before args children; and when the offset lies outside the span of every node
at every depth of a forest, findNodeInList returns none. The original claim's stronger
reading - that the returned node is the globally most deeply nested containing node -
is refuted by C7_counterexample: the greedy descent commits to the first containing
child and never backtracks to a deeper match in a later sibling. -/
theorem C7_find_node_at_cursor :
    (∀ (offset : Nat) (n m : LNode), findNodeAtCursor offset n = some m →
        nodeLocContains m offset = true ∧ noLocatedChildContains m offset = true) ∧
      ∀ (offset : Nat) (roots : List LNode), offsetOutsideAll roots offset = true →
        findNodeInList offset roots = none := by
  constructor
  · intro offset n m hfind
    exact findNodeAtCursor_sound offset (sizeOf n) n le_rfl m hfind
  · intro offset roots hout
    rw [findNodeInList_eq_none_iff]
    intro c hc
    rw [findNodeAtCursor_eq_none_iff]
    have hmem := self_mem_nodesAtDepthList 1 roots c hc
    rw [offsetOutsideAll, List.all_eq_true] at hout
    have := hout (c, 1) hmem
    simpa using this

/-- Witness for C7: the soundness half applied at offset 0 on a concrete node, and the
outside half applied at offset 99 on a concrete two-node forest. -/
theorem C7_find_node_at_cursor_witness :
    (nodeLocContains c7nodeA 0 = true ∧ noLocatedChildContains c7nodeA 0 = true) ∧
      findNodeInList 99 [c7nodeA, c7nodeB] = none :=
  ⟨C7_find_node_at_cursor.1 0 c7nodeA c7nodeA (by rfl),
   C7_find_node_at_cursor.2 99 [c7nodeA, c7nodeB] (by rfl)⟩

theorem outerEndFrom_append_singleton (y : LNode) :
    ∀ (xs : List LNode) (b : Nat), outerEndFrom b (xs ++ [y]) = outerEnd y := by
  intro xs
  induction xs with
  | nil => intro b; rfl
  | cons c rest ih => intro b; simpa [outerEndFrom] using ih (outerEnd c)

theorem midChain_append_singleton (y : LNode) :
    ∀ (xs : List LNode) (b : Nat), midChain b xs = true →
      midWfNode (outerEndFrom b xs) y = true → midChain b (xs ++ [y]) = true := by
  intro xs
  induction xs with
  | nil =>
    intro b _ hy
    simp [midChain, outerEndFrom] at hy ⊢
    exact hy
  | cons c rest ih =>
    intro b hch hy
    rw [midChain, Bool.and_eq_true] at hch
    rw [List.cons_append, midChain, Bool.and_eq_true]
    exact ⟨hch.1, ih (outerEnd c) hch.2 hy⟩

theorem midWf_le_outerEnd :
    ∀ (k : Nat) (n : LNode), sizeOf n ≤ k → ∀ b, midWfNode b n = true → b ≤ outerEnd n := by
  intro k
  induction k with
  | zero =>
    intro n hsz
    exfalso
    cases n
    simp at hsz
  | succ k ih =>
    intro n hsz b hwf
    cases n with
    | mk kd nm loc args content =>
      have hchild : ∀ c ∈ content, sizeOf c ≤ k := by
        intro c hc
        have h2 := List.sizeOf_lt_of_mem hc
        simp only [LNode.mk.sizeOf_spec] at hsz
        omega
      have hlist : ∀ (cs : List LNode), (∀ c ∈ cs, sizeOf c ≤ k) →
          ∀ e, midChain e cs = true → e ≤ outerEndFrom e cs := by
        intro cs
        induction cs with
        | nil => intro _ e _; simp [outerEndFrom]
        | cons c rest ih2 =>
          intro hsub e hch
          rw [midChain, Bool.and_eq_true] at hch
          have h1 : e ≤ outerEnd c := ih c (hsub c (by simp)) e hch.1
          have h2 : outerEnd c ≤ outerEndFrom (outerEnd c) rest :=
            ih2 (fun c2 hc2 => hsub c2 (by simp [hc2])) (outerEnd c) hch.2
          calc e ≤ outerEnd c := h1
            _ ≤ outerEndFrom (outerEnd c) rest := h2
            _ = outerEndFrom e (c :: rest) := rfl
      cases loc with
      | none => simp [midWfNode] at hwf
      | some l =>
        rw [midWfNode] at hwf
        simp only [Bool.and_eq_true, decide_eq_true_eq] at hwf
        obtain ⟨⟨⟨⟨hb, hse⟩, _⟩, _⟩, hrest⟩ := hwf
        by_cases hk : isHeadingKind kd = true
        · rw [hk, if_pos rfl] at hrest
          have := hlist content hchild l.endOff hrest
          simp only [outerEnd, hk, if_pos]
          omega
        · rw [Bool.not_eq_true] at hk
          simp only [outerEnd, hk, Bool.false_eq_true, if_false]
          omega

theorem pushContent_kind (s x : LNode) : (pushContent s x).kind = s.kind := by
  cases s; rfl

theorem midWf_push (s x : LNode) (b : Nat) (hs : midWfNode b s = true)
    (hk : isHeadingKind s.kind = true) (hx : midWfNode (outerEnd s) x = true) :
    midWfNode b (pushContent s x) = true ∧ outerEnd (pushContent s x) = outerEnd x := by
  cases s with
  | mk kd nm loc args content =>
    simp only [LNode.kind] at hk
    cases loc with
    | none => simp [midWfNode] at hs
    | some l =>
      rw [midWfNode] at hs
      simp only [Bool.and_eq_true] at hs
      obtain ⟨⟨⟨⟨hb, hse⟩, ha1⟩, ha2⟩, hrest⟩ := hs
      rw [hk, if_pos rfl] at hrest
      have hout : outerEnd (LNode.mk kd nm (some l) args content) =
          outerEndFrom l.endOff content := by
        simp [outerEnd, hk]
      rw [hout] at hx
      constructor
      · rw [pushContent, midWfNode]
        simp only [Bool.and_eq_true]
        refine ⟨⟨⟨⟨hb, hse⟩, ha1⟩, ha2⟩, ?_⟩
        rw [hk, if_pos rfl]
        exact midChain_append_singleton x content l.endOff hrest hx
      · rw [pushContent]
        simp only [outerEnd, hk, if_pos]
        exact outerEndFrom_append_singleton x content l.endOff

theorem inWf_start_le_end (n : LNode) (h : inWfNode n = true) : startO n ≤ endO n := by
  cases n with
  | mk kd nm loc args content =>
    cases loc with
    | none => simp [inWfNode] at h
    | some l =>
      rw [inWfNode] at h
      simp only [Bool.and_eq_true, decide_eq_true_eq] at h
      simpa [startO, endO, LNode.location] using h.1.1.1.1.2

theorem inChain_le_lastEnd :
    ∀ (cs : List LNode) (b : Nat), inChain b cs = true → b ≤ lastEnd b cs := by
  intro cs
  induction cs with
  | nil => intro b _; simp [lastEnd]
  | cons c rest ih =>
    intro b hch
    rw [inChain] at hch
    simp only [Bool.and_eq_true, decide_eq_true_eq] at hch
    obtain ⟨⟨hb, hwf⟩, hrest⟩ := hch
    have h1 := inWf_start_le_end c hwf
    have h2 := ih (endO c) hrest
    calc b ≤ startO c := hb
      _ ≤ endO c := h1
      _ ≤ lastEnd (endO c) rest := h2
      _ = lastEnd b (c :: rest) := rfl

theorem inChain_mem_bounds :
    ∀ (cs : List LNode) (b : Nat), inChain b cs = true →
      ∀ x ∈ cs, b ≤ startO x ∧ endO x ≤ lastEnd b cs ∧ inWfNode x = true := by
  intro cs
  induction cs with
  | nil => intro b _ x hx; cases hx
  | cons c rest ih =>
    intro b hch x hx
    rw [inChain] at hch
    simp only [Bool.and_eq_true, decide_eq_true_eq] at hch
    obtain ⟨⟨hb, hwf⟩, hrest⟩ := hch
    rcases List.mem_cons.mp hx with rfl | hx2
    · refine ⟨hb, ?_, hwf⟩
      have := inChain_le_lastEnd rest (endO x) hrest
      calc endO x ≤ lastEnd (endO x) rest := this
        _ = lastEnd b (x :: rest) := rfl
    · obtain ⟨h1, h2, h3⟩ := ih (endO c) hrest x hx2
      have hce := inWf_start_le_end c hwf
      exact ⟨by omega, by simpa [lastEnd] using h2, h3⟩

theorem inWf_midWf :
    ∀ (k : Nat) (n : LNode), sizeOf n ≤ k → inWfNode n = true →
      (∀ b, b ≤ startO n → midWfNode b n = true) ∧ outerEnd n = endO n := by
  intro k
  induction k with
  | zero =>
    intro n hsz
    exfalso
    cases n
    simp at hsz
  | succ k ih =>
    intro n hsz hwf
    cases n with
    | mk kd nm loc args content =>
      have hchild : ∀ c ∈ content, sizeOf c ≤ k := by
        intro c hc
        have h2 := List.sizeOf_lt_of_mem hc
        simp only [LNode.mk.sizeOf_spec] at hsz
        omega
      have hlist : ∀ (cs : List LNode), (∀ c ∈ cs, sizeOf c ≤ k) →
          ∀ e, inChain e cs = true →
            midChain e cs = true ∧ outerEndFrom e cs = lastEnd e cs := by
        intro cs
        induction cs with
        | nil => intro _ e _; simp [midChain, outerEndFrom, lastEnd]
        | cons c rest ih2 =>
          intro hsub e hch
          rw [inChain] at hch
          simp only [Bool.and_eq_true, decide_eq_true_eq] at hch
          obtain ⟨⟨hb, hcwf⟩, hrest⟩ := hch
          obtain ⟨hmid, houter⟩ := ih c (hsub c (by simp)) hcwf
          obtain ⟨hmidr, houterr⟩ :=
            ih2 (fun c2 hc2 => hsub c2 (by simp [hc2])) (endO c) hrest
          constructor
          · rw [midChain, Bool.and_eq_true]
            exact ⟨hmid e hb, by rw [houter]; exact hmidr⟩
          · show outerEndFrom (outerEnd c) rest = lastEnd e (c :: rest)
            rw [houter]
            exact houterr
      cases loc with
      | none => simp [inWfNode] at hwf
      | some l =>
        rw [inWfNode] at hwf
        simp only [Bool.and_eq_true, decide_eq_true_eq] at hwf
        obtain ⟨⟨⟨⟨⟨hnh, hse⟩, ha1⟩, ha2⟩, hc1⟩, hc2⟩ := hwf
        have hkfalse : isHeadingKind kd = false := by
          rw [Bool.not_eq_true'] at hnh
          exact hnh
        obtain ⟨hmid, houter⟩ := hlist content hchild l.startOff hc1
        constructor
        · intro b hb
          rw [midWfNode]
          simp only [Bool.and_eq_true, decide_eq_true_eq]
          refine ⟨⟨⟨⟨?_, hse⟩, ha1⟩, by exact_mod_cast ha2⟩, ?_⟩
          · simpa [startO, LNode.location] using hb
          · rw [hkfalse]
            simp only [Bool.false_eq_true, if_false, Bool.and_eq_true, decide_eq_true_eq]
            exact ⟨hmid, by rw [houter]; exact hc2⟩
        · simp [outerEnd, hkfalse, endO, LNode.location]

theorem inWf_outWf :
    ∀ (k : Nat) (n : LNode), sizeOf n ≤ k → inWfNode n = true → outWfNode n = true := by
  intro k
  induction k with
  | zero =>
    intro n hsz
    exfalso
    cases n
    simp at hsz
  | succ k ih =>
    intro n hsz hwf
    cases n with
    | mk kd nm loc args content =>
      have hchild : ∀ c, c ∈ args ∨ c ∈ content → sizeOf c ≤ k := by
        intro c hc
        simp only [LNode.mk.sizeOf_spec] at hsz
        rcases hc with hc | hc <;>
          · have h2 := List.sizeOf_lt_of_mem hc
            omega
      have hlist : ∀ (cs : List LNode), (∀ c ∈ cs, sizeOf c ≤ k) →
          (∀ c ∈ cs, inWfNode c = true) → outWfList cs = true := by
        intro cs
        induction cs with
        | nil => intro _ _; rfl
        | cons c rest ih2 =>
          intro hsub hwfs
          rw [outWfList, Bool.and_eq_true]
          exact ⟨ih c (hsub c (by simp)) (hwfs c (by simp)),
            ih2 (fun c2 hc2 => hsub c2 (by simp [hc2]))
              (fun c2 hc2 => hwfs c2 (by simp [hc2]))⟩
      cases loc with
      | none => simp [inWfNode] at hwf
      | some l =>
        rw [inWfNode] at hwf
        simp only [Bool.and_eq_true, decide_eq_true_eq] at hwf
        obtain ⟨⟨⟨⟨⟨hnh, hse⟩, ha1⟩, ha2⟩, hc1⟩, hc2⟩ := hwf
        have hwithin : ∀ (cs : List LNode), inChain l.startOff cs = true →
            lastEnd l.startOff cs ≤ l.endOff →
            cs.all (fun c => locWithin c.location l) = true := by
          intro cs hch hle
          rw [List.all_eq_true]
          intro c hc
          obtain ⟨h1, h2, h3⟩ := inChain_mem_bounds cs l.startOff hch c hc
          rcases hcl : c.location with _ | lc
          · rfl
          · rw [locWithin]
            simp only [Bool.and_eq_true, decide_eq_true_eq]
            have hs : startO c = lc.startOff := by rw [startO, hcl]
            have he : endO c = lc.endOff := by rw [endO, hcl]
            omega
        rw [outWfNode]
        simp only [Bool.and_eq_true]
        refine ⟨⟨?_, ?_⟩, ?_⟩
        · simp only [Bool.and_eq_true, decide_eq_true_eq, Bool.or_eq_true]
          exact ⟨⟨hse, hwithin content hc1 hc2⟩, Or.inr (hwithin args ha1 ha2)⟩
        · exact hlist args (fun c hc => hchild c (Or.inl hc))
            (fun c hc => (inChain_mem_bounds args l.startOff ha1 c hc).2.2)
        · exact hlist content (fun c hc => hchild c (Or.inr hc))
            (fun c hc => (inChain_mem_bounds content l.startOff hc1 c hc).2.2)

theorem inChain_outWfList (cs : List LNode) (b : Nat) (h : inChain b cs = true) :
    outWfList cs = true := by
  induction cs generalizing b with
  | nil => rfl
  | cons c rest ih =>
    rw [inChain] at h
    simp only [Bool.and_eq_true] at h
    rw [outWfList, Bool.and_eq_true]
    exact ⟨inWf_outWf (sizeOf c) c le_rfl h.1.2, ih (endO c) h.2⟩

theorem midWf_mkSectionNode (kindStr : String) (hk : isHeadingKind kindStr = true)
    (n : LNode) (hwf : inWfNode n = true) (b : Nat) (hb : b ≤ startO n) :
    midWfNode b (mkSectionNode kindStr n) = true ∧
      outerEnd (mkSectionNode kindStr n) = endO n ∧
      isHeadingKind (mkSectionNode kindStr n).kind = true := by
  cases n with
  | mk kd nm loc args content =>
    cases loc with
    | none => simp [inWfNode] at hwf
    | some l =>
      rw [inWfNode] at hwf
      simp only [Bool.and_eq_true, decide_eq_true_eq] at hwf
      obtain ⟨⟨⟨⟨⟨hnh, hse⟩, ha1⟩, ha2⟩, hc1⟩, hc2⟩ := hwf
      rw [startO, LNode.location] at hb
      refine ⟨?_, ?_, by simpa [mkSectionNode, LNode.kind] using hk⟩
      · rw [mkSectionNode, LNode.location, LNode.args, midWfNode]
        simp only [Bool.and_eq_true, decide_eq_true_eq]
        refine ⟨⟨⟨⟨hb, hse⟩, ha1⟩, ha2⟩, ?_⟩
        rw [hk, if_pos rfl]
        rfl
      · rw [mkSectionNode, LNode.location, LNode.args]
        simp [outerEnd, hk, outerEndFrom, endO, LNode.location]

theorem locChain_le_lastEnd :
    ∀ (cs : List LNode) (b : Nat), locChain b cs = true → b ≤ lastEnd b cs := by
  intro cs
  induction cs with
  | nil => intro b _; simp [lastEnd]
  | cons c rest ih =>
    intro b hch
    rw [locChain] at hch
    rcases hcl : c.location with _ | l
    · rw [hcl] at hch; simp at hch
    · rw [hcl] at hch
      simp only [Bool.and_eq_true, decide_eq_true_eq] at hch
      obtain ⟨⟨hb, hse⟩, hrest⟩ := hch
      have h2 := ih l.endOff hrest
      have he : endO c = l.endOff := by rw [endO, hcl]
      show b ≤ lastEnd (endO c) rest
      rw [he]
      omega

theorem locChain_mono (cs : List LNode) (b b' : Nat) (hb : b' ≤ b)
    (h : locChain b cs = true) : locChain b' cs = true := by
  cases cs with
  | nil => rfl
  | cons c rest =>
    rw [locChain] at h ⊢
    rcases hcl : c.location with _ | l
    · rw [hcl] at h; simp at h
    · rw [hcl] at h
      simp only [Bool.and_eq_true, decide_eq_true_eq] at h ⊢
      exact ⟨⟨by omega, h.1.2⟩, h.2⟩

theorem locChain_located :
    ∀ (cs : List LNode) (b : Nat), locChain b cs = true →
      ∀ x ∈ cs, x.location.isSome = true := by
  intro cs
  induction cs with
  | nil => intro b _ x hx; cases hx
  | cons c rest ih =>
    intro b hch x hx
    rw [locChain] at hch
    rcases hcl : c.location with _ | l
    · rw [hcl] at hch; simp at hch
    · rw [hcl] at hch
      simp only [Bool.and_eq_true] at hch
      rcases List.mem_cons.mp hx with rfl | hx2
      · simp [hcl]
      · exact ih l.endOff hch.2 x hx2

theorem locChain_mem_bounds :
    ∀ (cs : List LNode) (b : Nat), locChain b cs = true →
      ∀ x ∈ cs, b ≤ startO x ∧ endO x ≤ lastEnd b cs ∧ startO x ≤ endO x := by
  intro cs
  induction cs with
  | nil => intro b _ x hx; cases hx
  | cons c rest ih =>
    intro b hch x hx
    rw [locChain] at hch
    rcases hcl : c.location with _ | l
    · rw [hcl] at hch; simp at hch
    · rw [hcl] at hch
      simp only [Bool.and_eq_true, decide_eq_true_eq] at hch
      obtain ⟨⟨hb, hse⟩, hrest⟩ := hch
      have hs : startO c = l.startOff := by rw [startO, hcl]
      have he : endO c = l.endOff := by rw [endO, hcl]
      have hlast : lastEnd b (c :: rest) = lastEnd l.endOff rest := by
        show lastEnd (endO c) rest = lastEnd l.endOff rest
        rw [he]
      rcases List.mem_cons.mp hx with rfl | hx2
      · have h2 := locChain_le_lastEnd rest l.endOff hrest
        rw [hlast]
        omega
      · obtain ⟨h1, h2, h3⟩ := ih l.endOff hrest x hx2
        rw [hlast]
        exact ⟨by omega, h2, h3⟩

theorem locChain_getLast_endO :
    ∀ (cs : List LNode) (b : Nat) (h : cs ≠ []), locChain b cs = true →
      endO (cs.getLast h) = lastEnd b cs := by
  intro cs
  induction cs with
  | nil => intro b h; exact absurd rfl h
  | cons c rest ih =>
    intro b h hch
    rw [locChain] at hch
    rcases hcl : c.location with _ | l
    · rw [hcl] at hch; simp at hch
    · rw [hcl] at hch
      simp only [Bool.and_eq_true] at hch
      have he : endO c = l.endOff := by rw [endO, hcl]
      cases rest with
      | nil => simp [List.getLast, lastEnd]
      | cons c2 rest2 =>
        have hne : (c2 :: rest2) ≠ [] := by simp
        have := ih l.endOff hne hch.2
        rw [List.getLast_cons hne]
        show endO ((c2 :: rest2).getLast hne) = lastEnd (endO c) (c2 :: rest2)
        rw [he]
        exact this

theorem revFind_getLast (l : List LNode) (h : l ≠ [])
    (hall : ∀ x ∈ l, x.location.isSome = true) :
    (l.reverse).find? (fun c => c.location.isSome) = some (l.getLast h) := by
  rcases hr : l.reverse with _ | ⟨r0, rtail⟩
  · exfalso
    have : l = [] := by simpa using congrArg List.reverse hr
    exact h this
  · have hl : l = rtail.reverse ++ [r0] := by
      have := congrArg List.reverse hr
      simpa using this
    have hr0 : r0 ∈ l := by rw [hl]; simp
    rw [List.find?_cons_of_pos (p := fun c => c.location.isSome) rtail (hall r0 hr0)]
    congr 1
    subst hl
    exact (List.getLast_append_singleton _).symm

theorem inChain_all_within (cs : List LNode) (l : Loc) (h1 : inChain l.startOff cs = true)
    (h2 : lastEnd l.startOff cs ≤ l.endOff) :
    cs.all (fun c => locWithin c.location l) = true := by
  rw [List.all_eq_true]
  intro c hc
  obtain ⟨hb, he, hwf⟩ := inChain_mem_bounds cs l.startOff h1 c hc
  rcases hcl : c.location with _ | lc
  · rfl
  · rw [locWithin]
    simp only [Bool.and_eq_true, decide_eq_true_eq]
    have hs : startO c = lc.startOff := by rw [startO, hcl]
    have he2 : endO c = lc.endOff := by rw [endO, hcl]
    omega

theorem locChain_all_within (cs : List LNode) (l : Loc) (h1 : locChain l.startOff cs = true)
    (h2 : lastEnd l.startOff cs ≤ l.endOff) :
    cs.all (fun c => locWithin c.location l) = true := by
  rw [List.all_eq_true]
  intro c hc
  obtain ⟨hb, he, hse⟩ := locChain_mem_bounds cs l.startOff h1 c hc
  rcases hcl : c.location with _ | lc
  · rfl
  · rw [locWithin]
    simp only [Bool.and_eq_true, decide_eq_true_eq]
    have hs : startO c = lc.startOff := by rw [startO, hcl]
    have he2 : endO c = lc.endOff := by rw [endO, hcl]
    omega

theorem updateSection_wf :
    ∀ (K : Nat) (n : LNode), sizeOf n ≤ K → ∀ b, midWfNode b n = true →
      outWfNode (updateSectionNode n) = true ∧
        newLocOk b (outerEnd n) (updateSectionNode n) = true := by
  intro K
  induction K with
  | zero =>
    intro n hsz
    exfalso
    cases n
    simp at hsz
  | succ K ih =>
    intro n hsz b hwf
    cases n with
    | mk kd nm loc args content =>
      have hchild : ∀ c ∈ content, sizeOf c ≤ K := by
        intro c hc
        have h2 := List.sizeOf_lt_of_mem hc
        simp only [LNode.mk.sizeOf_spec] at hsz
        omega
      have hlist : ∀ (cs : List LNode), (∀ c ∈ cs, sizeOf c ≤ K) →
          ∀ e, midChain e cs = true →
            outWfList (updateSectionLocations cs) = true ∧
            locChain e (updateSectionLocations cs) = true ∧
            lastEnd e (updateSectionLocations cs) ≤ outerEndFrom e cs := by
        intro cs
        induction cs with
        | nil => intro _ e _; exact ⟨rfl, rfl, le_refl e⟩
        | cons c rest ih2 =>
          intro hsub e hch
          rw [midChain, Bool.and_eq_true] at hch
          obtain ⟨hc, hrest⟩ := hch
          obtain ⟨hout1, hnl⟩ := ih c (hsub c (by simp)) e hc
          obtain ⟨ho2, hlc2, hle2⟩ :=
            ih2 (fun c2 h2 => hsub c2 (by simp [h2])) (outerEnd c) hrest
          rcases hl' : (updateSectionNode c).location with _ | l'
          · rw [newLocOk, hl'] at hnl
            simp at hnl
          · rw [newLocOk, hl'] at hnl
            simp only [Bool.and_eq_true, decide_eq_true_eq] at hnl
            obtain ⟨⟨hb1, hse1⟩, hle1⟩ := hnl
            have hgoal1 : outWfList (updateSectionLocations (c :: rest)) = true := by
              rw [updateSectionLocations, outWfList, Bool.and_eq_true]
              exact ⟨hout1, ho2⟩
            have hgoal2 : locChain e (updateSectionLocations (c :: rest)) = true := by
              rw [updateSectionLocations, locChain, hl']
              simp only [Bool.and_eq_true, decide_eq_true_eq]
              exact ⟨⟨hb1, hse1⟩, locChain_mono _ _ _ hle1 hlc2⟩
            have hgoal3 : lastEnd e (updateSectionLocations (c :: rest)) ≤
                outerEndFrom e (c :: rest) := by
              rw [updateSectionLocations]
              show lastEnd (endO (updateSectionNode c)) (updateSectionLocations rest) ≤
                outerEndFrom (outerEnd c) rest
              have hend : endO (updateSectionNode c) = l'.endOff := by rw [endO, hl']
              cases hcr : rest with
              | nil =>
                simp only [updateSectionLocations, lastEnd, outerEndFrom, hend]
                exact hle1
              | cons c2 r2 =>
                rw [hcr] at hle2
                have hshape : updateSectionLocations (c2 :: r2) =
                    updateSectionNode c2 :: updateSectionLocations r2 := rfl
                rw [hshape]
                rw [hshape] at hle2
                show lastEnd (endO (updateSectionNode c2)) (updateSectionLocations r2) ≤
                  outerEndFrom (outerEnd c) (c2 :: r2)
                exact hle2
            exact ⟨hgoal1, hgoal2, hgoal3⟩
      cases loc with
      | none =>
        rw [midWfNode] at hwf
        simp at hwf
      | some l =>
        rw [midWfNode] at hwf
        simp only [Bool.and_eq_true, decide_eq_true_eq] at hwf
        obtain ⟨⟨⟨⟨hb, hse⟩, ha1⟩, ha2⟩, hrest⟩ := hwf
        have hbridge : (decide (kd = "section") || decide (kd = "subsection") ||
            decide (kd = "subsubsection")) = isHeadingKind kd := rfl
        have houtargs : outWfList args = true := inChain_outWfList args l.startOff ha1
        by_cases hk : isHeadingKind kd = true
        · rw [hk, if_pos rfl] at hrest
          obtain ⟨houtl, hlc0, hle⟩ := hlist content hchild l.endOff hrest
          cases content with
          | nil =>
            have houter0 : outerEnd (LNode.mk kd nm (some l) args []) = l.endOff := by
              simp [outerEnd, hk, outerEndFrom]
            have hval : updateSectionNode (LNode.mk kd nm (some l) args []) =
                LNode.mk kd nm (some l) args [] := by
              rw [updateSectionNode]
              simp [updateSectionLocations]
            rw [hval, houter0]
            constructor
            · rw [outWfNode]
              simp only [Bool.and_eq_true]
              refine ⟨⟨?_, houtargs⟩, rfl⟩
              simp [hse, hk]
            · rw [newLocOk]
              simp [LNode.location, hb, hse]
          | cons c crest =>
            have hcons : updateSectionLocations (c :: crest) =
                updateSectionNode c :: updateSectionLocations crest := rfl
            rw [hcons] at houtl hlc0 hle
            have hlc1 := hlc0
            rcases hlf : (updateSectionNode c).location with _ | lf
            · rw [locChain, hlf] at hlc1
              simp at hlc1
            · rw [locChain, hlf] at hlc1
              simp only [Bool.and_eq_true, decide_eq_true_eq] at hlc1
              obtain ⟨⟨hb1, hse1⟩, hlcrest⟩ := hlc1
              have hne : (updateSectionNode c :: updateSectionLocations crest) ≠ [] := by simp
              have hallsome := locChain_located _ _ hlc0
              have hfind1 : List.find? (fun child : LNode => child.location.isSome)
                  (updateSectionNode c :: updateSectionLocations crest) =
                    some (updateSectionNode c) :=
                List.find?_cons_of_pos (p := fun child : LNode => child.location.isSome)
                  (updateSectionLocations crest) (by simp [hlf])
              have hfind2 := revFind_getLast _ hne hallsome
              have hglmem := List.getLast_mem hne
              have hglsome := hallsome _ hglmem
              rcases hll : ((updateSectionNode c ::
                  updateSectionLocations crest).getLast hne).location with _ | ll
              · rw [hll] at hglsome
                simp at hglsome
              · have hglend : endO ((updateSectionNode c ::
                      updateSectionLocations crest).getLast hne) =
                    lastEnd l.endOff (updateSectionNode c :: updateSectionLocations crest) :=
                  locChain_getLast_endO _ _ hne hlc0
                have hllend : ll.endOff =
                    lastEnd l.endOff (updateSectionNode c :: updateSectionLocations crest) := by
                  rw [← hglend, endO, hll]
                have hcond : (isHeadingKind kd &&
                    decide ((updateSectionLocations (c :: crest)).length > 0)) = true := by
                  rw [hk, hcons]
                  simp
                have hsu : startO (updateSectionNode c) = lf.startOff := by rw [startO, hlf]
                have heu : endO (updateSectionNode c) = lf.endOff := by rw [endO, hlf]
                have hval : updateSectionNode (LNode.mk kd nm (some l) args (c :: crest)) =
                    LNode.mk kd nm (some ⟨lf.startOff, ll.endOff⟩) args
                      (updateSectionNode c :: updateSectionLocations crest) := by
                  rw [updateSectionNode, hbridge, if_pos hcond]
                  simp only [hcons, hfind1, hfind2]
                  rw [hlf, hll]
                have houter0 : outerEnd (LNode.mk kd nm (some l) args (c :: crest)) =
                    outerEndFrom l.endOff (c :: crest) := by
                  simp [outerEnd, hk]
                have hlastbase : lastEnd l.endOff
                    (updateSectionNode c :: updateSectionLocations crest) =
                    lastEnd lf.startOff
                      (updateSectionNode c :: updateSectionLocations crest) := rfl
                have hself := locChain_mem_bounds _ _ hlc0 (updateSectionNode c) (by simp)
                rw [hval, houter0]
                constructor
                · rw [outWfNode]
                  simp only [Bool.and_eq_true]
                  refine ⟨⟨?_, houtargs⟩, houtl⟩
                  simp only [Bool.and_eq_true, Bool.or_eq_true, decide_eq_true_eq]
                  refine ⟨⟨?_, ?_⟩, Or.inl hk⟩
                  · omega
                  · have hlchull : locChain lf.startOff
                        (updateSectionNode c :: updateSectionLocations crest) = true := by
                      rw [locChain, hlf]
                      simp only [Bool.and_eq_true, decide_eq_true_eq]
                      exact ⟨⟨le_refl _, hse1⟩, hlcrest⟩
                    exact locChain_all_within _ ⟨lf.startOff, ll.endOff⟩ hlchull
                      (by rw [← hlastbase, ← hllend])
                · rw [newLocOk]
                  simp only [LNode.location, Bool.and_eq_true, decide_eq_true_eq]
                  refine ⟨⟨by omega, by omega⟩, ?_⟩
                  rw [hllend]
                  exact hle
        · rw [Bool.not_eq_true] at hk
          rw [hk] at hrest
          simp only [Bool.false_eq_true, if_false, Bool.and_eq_true, decide_eq_true_eq] at hrest
          obtain ⟨hmidc, hbound⟩ := hrest
          obtain ⟨houtl, hlc0, hle⟩ := hlist content hchild l.startOff hmidc
          have hcond : (isHeadingKind kd &&
              decide ((updateSectionLocations content).length > 0)) = false := by
            rw [hk]
            simp
          have hval : updateSectionNode (LNode.mk kd nm (some l) args content) =
              LNode.mk kd nm (some l) args (updateSectionLocations content) := by
            rw [updateSectionNode, hbridge, hcond]
            simp
          have houter0 : outerEnd (LNode.mk kd nm (some l) args content) = l.endOff := by
            simp [outerEnd, hk]
          rw [hval, houter0]
          constructor
          · rw [outWfNode]
            simp only [Bool.and_eq_true]
            refine ⟨⟨?_, houtargs⟩, houtl⟩
            simp only [Bool.and_eq_true, Bool.or_eq_true, decide_eq_true_eq]
            refine ⟨⟨hse, ?_⟩, Or.inr (inChain_all_within args l ha1 ha2)⟩
            exact locChain_all_within _ l hlc0 (le_trans hle hbound)
          · rw [newLocOk]
            simp [LNode.location, hb, hse]

theorem optOuter_ge (c : Nat) (o : Option LNode) (h : optInv c o = true) :
    c ≤ optOuter c o := by
  cases o with
  | none => exact le_refl c
  | some s =>
    rw [optInv, Bool.and_eq_true] at h
    exact midWf_le_outerEnd (sizeOf s) s le_rfl c h.1

theorem midChain_push_result (B : Nat) (result : List LNode) (s : LNode)
    (hres : midChain B result = true) (hs : optInv (outerEndFrom B result) (some s) = true) :
    midChain B (result ++ [s]) = true ∧ outerEndFrom B (result ++ [s]) = outerEnd s := by
  rw [optInv, Bool.and_eq_true] at hs
  exact ⟨midChain_append_singleton s result B hres hs.1,
    outerEndFrom_append_singleton s result B⟩

theorem optInv_mk (c : Nat) (x : LNode) (h1 : midWfNode c x = true)
    (h2 : isHeadingKind x.kind = true) : optInv c (some x) = true := by
  simp [optInv, h1, h2]

theorem stInv_build (B : Nat) (r2 : List LNode) (sec2 sub2 subsub2 : Option LNode)
    (h1 : midChain B r2 = true)
    (h2 : optInv (outerEndFrom B r2) sec2 = true)
    (h3 : optInv (optOuter (outerEndFrom B r2) sec2) sub2 = true)
    (h4 : optInv (optOuter (optOuter (outerEndFrom B r2) sec2) sub2) subsub2 = true) :
    stInv B r2 sec2 sub2 subsub2 = true := by
  simp [stInv, h1, h2, h3, h4]

theorem stStep_sec (B : Nat) (r2 : List LNode) (n : LNode) (e : Nat)
    (h1 : midChain B r2 = true) (he : outerEndFrom B r2 = e)
    (hwf : inWfNode n = true) (hle : e ≤ startO n) :
    stInv B r2 (some (mkSectionNode "section" n)) none none = true ∧
      stCursor B r2 (some (mkSectionNode "section" n)) none none = endO n := by
  obtain ⟨hms, hmse, hmk⟩ := midWf_mkSectionNode "section" (by decide) n hwf e hle
  refine ⟨stInv_build _ _ _ _ _ h1 (by rw [he]; exact optInv_mk _ _ hms hmk) rfl rfl, ?_⟩
  show outerEnd (mkSectionNode "section" n) = endO n
  exact hmse

theorem stStep_sub (B : Nat) (r2 : List LNode) (sec2 : Option LNode) (n : LNode) (e : Nat)
    (h1 : midChain B r2 = true) (h2 : optInv (outerEndFrom B r2) sec2 = true)
    (he : optOuter (outerEndFrom B r2) sec2 = e)
    (hwf : inWfNode n = true) (hle : e ≤ startO n) :
    stInv B r2 sec2 (some (mkSectionNode "subsection" n)) none = true ∧
      stCursor B r2 sec2 (some (mkSectionNode "subsection" n)) none = endO n := by
  obtain ⟨hms, hmse, hmk⟩ := midWf_mkSectionNode "subsection" (by decide) n hwf e hle
  refine ⟨stInv_build _ _ _ _ _ h1 h2 (by rw [he]; exact optInv_mk _ _ hms hmk) rfl, ?_⟩
  show outerEnd (mkSectionNode "subsection" n) = endO n
  exact hmse

theorem stStep_subsub (B : Nat) (r2 : List LNode) (sec2 sub2 : Option LNode) (n : LNode)
    (e : Nat) (h1 : midChain B r2 = true) (h2 : optInv (outerEndFrom B r2) sec2 = true)
    (h3 : optInv (optOuter (outerEndFrom B r2) sec2) sub2 = true)
    (he : optOuter (optOuter (outerEndFrom B r2) sec2) sub2 = e)
    (hwf : inWfNode n = true) (hle : e ≤ startO n) :
    stInv B r2 sec2 sub2 (some (mkSectionNode "subsubsection" n)) = true ∧
      stCursor B r2 sec2 sub2 (some (mkSectionNode "subsubsection" n)) = endO n := by
  obtain ⟨hms, hmse, hmk⟩ := midWf_mkSectionNode "subsubsection" (by decide) n hwf e hle
  refine ⟨stInv_build _ _ _ _ _ h1 h2 h3 (by rw [he]; exact optInv_mk _ _ hms hmk), ?_⟩
  show outerEnd (mkSectionNode "subsubsection" n) = endO n
  exact hmse

theorem stStep_push3 (B : Nat) (r2 : List LNode) (sec2 sub2 : Option LNode) (ss x : LNode)
    (h1 : midChain B r2 = true)
    (h2 : optInv (outerEndFrom B r2) sec2 = true)
    (h3 : optInv (optOuter (outerEndFrom B r2) sec2) sub2 = true)
    (h4 : optInv (optOuter (optOuter (outerEndFrom B r2) sec2) sub2) (some ss) = true)
    (hx : midWfNode (outerEnd ss) x = true) :
    stInv B r2 sec2 sub2 (some (pushContent ss x)) = true ∧
      stCursor B r2 sec2 sub2 (some (pushContent ss x)) = outerEnd x := by
  simp only [optInv, Bool.and_eq_true] at h4
  obtain ⟨hpw, hpe⟩ := midWf_push ss x _ h4.1 h4.2 hx
  refine ⟨stInv_build _ _ _ _ _ h1 h2 h3
    (optInv_mk _ _ hpw (by rw [pushContent_kind]; exact h4.2)), ?_⟩
  show outerEnd (pushContent ss x) = outerEnd x
  exact hpe

theorem stStep_push2 (B : Nat) (r2 : List LNode) (sec2 : Option LNode) (u x : LNode)
    (h1 : midChain B r2 = true)
    (h2 : optInv (outerEndFrom B r2) sec2 = true)
    (h3 : optInv (optOuter (outerEndFrom B r2) sec2) (some u) = true)
    (hx : midWfNode (outerEnd u) x = true) :
    stInv B r2 sec2 (some (pushContent u x)) none = true ∧
      stCursor B r2 sec2 (some (pushContent u x)) none = outerEnd x := by
  simp only [optInv, Bool.and_eq_true] at h3
  obtain ⟨hpw, hpe⟩ := midWf_push u x _ h3.1 h3.2 hx
  refine ⟨stInv_build _ _ _ _ _ h1 h2
    (optInv_mk _ _ hpw (by rw [pushContent_kind]; exact h3.2)) rfl, ?_⟩
  show outerEnd (pushContent u x) = outerEnd x
  exact hpe

theorem stStep_push1 (B : Nat) (r2 : List LNode) (s x : LNode)
    (h1 : midChain B r2 = true)
    (h2 : optInv (outerEndFrom B r2) (some s) = true)
    (hx : midWfNode (outerEnd s) x = true) :
    stInv B r2 (some (pushContent s x)) none none = true ∧
      stCursor B r2 (some (pushContent s x)) none none = outerEnd x := by
  simp only [optInv, Bool.and_eq_true] at h2
  obtain ⟨hpw, hpe⟩ := midWf_push s x _ h2.1 h2.2 hx
  refine ⟨stInv_build _ _ _ _ _ h1
    (optInv_mk _ _ hpw (by rw [pushContent_kind]; exact h2.2)) rfl rfl, ?_⟩
  show outerEnd (pushContent s x) = outerEnd x
  exact hpe

theorem stStep_push0 (B : Nat) (r2 : List LNode) (x : LNode)
    (h1 : midChain B r2 = true)
    (hx : midWfNode (outerEndFrom B r2) x = true) :
    stInv B (r2 ++ [x]) none none none = true ∧
      stCursor B (r2 ++ [x]) none none none = outerEnd x := by
  refine ⟨stInv_build _ _ _ _ _ (midChain_append_singleton x r2 B h1 hx) rfl rfl rfl, ?_⟩
  show outerEndFrom B (r2 ++ [x]) = outerEnd x
  exact outerEndFrom_append_singleton x r2 B

theorem restructGo_wf :
    ∀ (K : Nat) (input : List LNode), sizeOf input ≤ K →
      ∀ (B : Nat) (result : List LNode) (sec sub subsub lastSeen : Option LNode),
        stInv B result sec sub subsub = true →
        inChain (stCursor B result sec sub subsub) input = true →
        midChain B (restructGo sec sub subsub result lastSeen input) = true ∧
          outerEndFrom B (restructGo sec sub subsub result lastSeen input) ≤
            lastEnd (stCursor B result sec sub subsub) input := by
  intro K
  induction K with
  | zero =>
    intro input hsz
    exfalso
    cases input
    · simp at hsz
    · simp at hsz
  | succ K ih =>
    intro input hsz B result sec sub subsub lastSeen hinv hin
    rw [stInv] at hinv
    simp only [Bool.and_eq_true] at hinv
    obtain ⟨⟨⟨hres, hsec⟩, hsub⟩, hss⟩ := hinv
    cases input with
    | nil =>
      simp only [stCursor] at hin ⊢
      rcases sec with _ | s <;> rcases sub with _ | u <;> rcases subsub with _ | ss <;>
        simp only [optOuter] at hsec hsub hss hin ⊢
      · exact ⟨hres, le_refl _⟩
      · exact ⟨hres, optOuter_ge _ ss hss⟩
      · exact ⟨hres, optOuter_ge _ u hsub⟩
      · exact ⟨hres, le_trans (optOuter_ge _ u hsub) (optOuter_ge _ ss hss)⟩
      · show midChain B (result ++ [s]) = true ∧ outerEndFrom B (result ++ [s]) ≤ outerEnd s
        obtain ⟨h1, h2⟩ := midChain_push_result B result s hres hsec
        rw [h2]
        exact ⟨h1, le_refl _⟩
      · show midChain B (result ++ [s]) = true ∧ outerEndFrom B (result ++ [s]) ≤ outerEnd ss
        obtain ⟨h1, h2⟩ := midChain_push_result B result s hres hsec
        rw [h2]
        exact ⟨h1, optOuter_ge _ ss hss⟩
      · show midChain B (result ++ [pushContent s u]) = true ∧
          outerEndFrom B (result ++ [pushContent s u]) ≤ outerEnd u
        simp only [optInv, Bool.and_eq_true] at hsec hsub
        obtain ⟨hpw, hpe⟩ := midWf_push s u (outerEndFrom B result) hsec.1 hsec.2 hsub.1
        have hinv2 : optInv (outerEndFrom B result) (some (pushContent s u)) = true := by
          simp only [optInv, Bool.and_eq_true]
          exact ⟨hpw, by rw [pushContent_kind]; exact hsec.2⟩
        obtain ⟨h1, h2⟩ := midChain_push_result B result (pushContent s u) hres hinv2
        rw [h2, hpe]
        exact ⟨h1, le_refl _⟩
      · show midChain B (result ++ [pushContent s u]) = true ∧
          outerEndFrom B (result ++ [pushContent s u]) ≤ outerEnd ss
        simp only [optInv, Bool.and_eq_true] at hsec hsub
        obtain ⟨hpw, hpe⟩ := midWf_push s u (outerEndFrom B result) hsec.1 hsec.2 hsub.1
        have hinv2 : optInv (outerEndFrom B result) (some (pushContent s u)) = true := by
          simp only [optInv, Bool.and_eq_true]
          exact ⟨hpw, by rw [pushContent_kind]; exact hsec.2⟩
        obtain ⟨h1, h2⟩ := midChain_push_result B result (pushContent s u) hres hinv2
        rw [h2, hpe]
        exact ⟨h1, optOuter_ge _ ss hss⟩
    | cons node rest =>
      have hszrest : sizeOf rest ≤ K := by
        simp only [List.cons.sizeOf_spec] at hsz
        omega
      rw [inChain] at hin
      simp only [Bool.and_eq_true, decide_eq_true_eq] at hin
      obtain ⟨⟨hcn, hwfn⟩, hinrest⟩ := hin
      have step : ∀ (result2 : List LNode) (sec2 sub2 subsub2 last2 : Option LNode),
          stInv B result2 sec2 sub2 subsub2 = true →
          stCursor B result2 sec2 sub2 subsub2 = endO node →
          midChain B (restructGo sec2 sub2 subsub2 result2 last2 rest) = true ∧
            outerEndFrom B (restructGo sec2 sub2 subsub2 result2 last2 rest) ≤
              lastEnd (stCursor B result sec sub subsub) (node :: rest) := by
        intro result2 sec2 sub2 subsub2 last2 hinv2 hcur2
        have h := ih rest hszrest B result2 sec2 sub2 subsub2 last2 hinv2
          (by rw [hcur2]; exact hinrest)
        rw [hcur2] at h
        exact h
      have inW := inWf_midWf (sizeOf node) node le_rfl hwfn
      rcases node with ⟨kd, nm, loc, args, content⟩
      rw [restructGo.eq_def]
      simp only [LNode.kind, LNode.name]
      by_cases hcmd : kd = "command"
      · rw [if_pos hcmd]
        by_cases hn1 : nm = some "section"
        · rw [if_pos hn1]
          rcases sec with _ | s <;> rcases sub with _ | u <;> rcases subsub with _ | ss <;>
            simp only [stCursor, optOuter] at hcn
          · obtain ⟨hI, hC⟩ := stStep_sec B result _ _ hres rfl hwfn hcn
            exact step result _ none none _ hI hC
          · obtain ⟨hI, hC⟩ := stStep_sec B result _ _ hres rfl hwfn
              (le_trans (optOuter_ge _ _ hss) hcn)
            exact step result _ none none _ hI hC
          · obtain ⟨hI, hC⟩ := stStep_sec B result _ _ hres rfl hwfn
              (le_trans (optOuter_ge _ _ hsub) hcn)
            exact step result _ none none _ hI hC
          · obtain ⟨hI, hC⟩ := stStep_sec B result _ _ hres rfl hwfn
              (le_trans (optOuter_ge _ _ hsub) (le_trans (optOuter_ge _ _ hss) hcn))
            exact step result _ none none _ hI hC
          · obtain ⟨hm1, hm2⟩ := midChain_push_result B result s hres hsec
            obtain ⟨hI, hC⟩ := stStep_sec B (result ++ [s]) _ (outerEnd s) hm1 hm2 hwfn hcn
            exact step _ _ none none _ hI hC
          · obtain ⟨hm1, hm2⟩ := midChain_push_result B result s hres hsec
            obtain ⟨hI, hC⟩ := stStep_sec B (result ++ [s]) _ (outerEnd s) hm1 hm2 hwfn
              (le_trans (optOuter_ge _ _ hss) hcn)
            exact step _ _ none none _ hI hC
          · simp only [optInv, Bool.and_eq_true] at hsec hsub
            obtain ⟨hpw, hpe⟩ := midWf_push s u (outerEndFrom B result) hsec.1 hsec.2 hsub.1
            obtain ⟨hm1, hm2⟩ := midChain_push_result B result (pushContent s u) hres
              (optInv_mk _ _ hpw (by rw [pushContent_kind]; exact hsec.2))
            obtain ⟨hI, hC⟩ := stStep_sec B (result ++ [pushContent s u]) _ (outerEnd u) hm1
              (by rw [hm2, hpe]) hwfn hcn
            exact step _ _ none none _ hI hC
          · simp only [optInv, Bool.and_eq_true] at hsec hsub hss
            obtain ⟨hpw1, hpe1⟩ := midWf_push u ss (outerEnd s) hsub.1 hsub.2 hss.1
            obtain ⟨hpw2, hpe2⟩ := midWf_push s (pushContent u ss) (outerEndFrom B result)
              hsec.1 hsec.2 hpw1
            obtain ⟨hm1, hm2⟩ := midChain_push_result B result
              (pushContent s (pushContent u ss)) hres
              (optInv_mk _ _ hpw2 (by rw [pushContent_kind]; exact hsec.2))
            obtain ⟨hI, hC⟩ := stStep_sec B (result ++ [pushContent s (pushContent u ss)]) _
              (outerEnd ss) hm1 (by rw [hm2, hpe2, hpe1]) hwfn hcn
            exact step _ _ none none _ hI hC
        · rw [if_neg hn1]
          by_cases hn2 : nm = some "subsection"
          · rw [if_pos hn2]
            rcases sec with _ | s <;> rcases sub with _ | u <;> rcases subsub with _ | ss <;>
              simp only [stCursor, optOuter] at hcn
            · obtain ⟨hI, hC⟩ := stStep_sub B result none _ _ hres rfl rfl hwfn hcn
              exact step result none _ none _ hI hC
            · obtain ⟨hI, hC⟩ := stStep_sub B result none _ _ hres rfl rfl hwfn
                (le_trans (optOuter_ge _ _ hss) hcn)
              exact step result none _ none _ hI hC
            · obtain ⟨hI, hC⟩ := stStep_sub B result none _ _ hres rfl rfl hwfn
                (le_trans (optOuter_ge _ _ hsub) hcn)
              exact step result none _ none _ hI hC
            · obtain ⟨hI, hC⟩ := stStep_sub B result none _ _ hres rfl rfl hwfn
                (le_trans (optOuter_ge _ _ hsub) (le_trans (optOuter_ge _ _ hss) hcn))
              exact step result none _ none _ hI hC
            · obtain ⟨hI, hC⟩ := stStep_sub B result (some s) _ (outerEnd s) hres hsec rfl
                hwfn hcn
              exact step result _ _ none _ hI hC
            · obtain ⟨hI, hC⟩ := stStep_sub B result (some s) _ (outerEnd s) hres hsec rfl
                hwfn (le_trans (optOuter_ge _ _ hss) hcn)
              exact step result _ _ none _ hI hC
            · simp only [optInv, Bool.and_eq_true] at hsec hsub
              obtain ⟨hpw, hpe⟩ := midWf_push s u (outerEndFrom B result) hsec.1 hsec.2 hsub.1
              obtain ⟨hI, hC⟩ := stStep_sub B result (some (pushContent s u)) _ (outerEnd u)
                hres (optInv_mk _ _ hpw (by rw [pushContent_kind]; exact hsec.2)) hpe hwfn hcn
              exact step result _ _ none _ hI hC
            · simp only [optInv, Bool.and_eq_true] at hsec hsub hss
              obtain ⟨hpw1, hpe1⟩ := midWf_push u ss (outerEnd s) hsub.1 hsub.2 hss.1
              obtain ⟨hpw2, hpe2⟩ := midWf_push s (pushContent u ss) (outerEndFrom B result)
                hsec.1 hsec.2 hpw1
              obtain ⟨hI, hC⟩ := stStep_sub B result (some (pushContent s (pushContent u ss)))
                _ (outerEnd ss) hres
                (optInv_mk _ _ hpw2 (by rw [pushContent_kind]; exact hsec.2))
                (by show outerEnd (pushContent s (pushContent u ss)) = outerEnd ss
                    rw [hpe2, hpe1])
                hwfn hcn
              exact step result _ _ none _ hI hC
          · rw [if_neg hn2]
            by_cases hn3 : nm = some "subsubsection"
            · rw [if_pos hn3]
              rcases sec with _ | s <;> rcases sub with _ | u <;> rcases subsub with _ | ss <;>
                simp only [stCursor, optOuter] at hcn
              · obtain ⟨hI, hC⟩ := stStep_subsub B result none none _ _ hres rfl rfl rfl
                  hwfn hcn
                exact step result none none _ _ hI hC
              · obtain ⟨hI, hC⟩ := stStep_subsub B result none none _ _ hres rfl rfl rfl
                  hwfn (le_trans (optOuter_ge _ _ hss) hcn)
                exact step result none none _ _ hI hC
              · obtain ⟨hI, hC⟩ := stStep_subsub B result none (some u) _ (outerEnd u) hres
                  rfl hsub rfl hwfn hcn
                exact step result none _ _ _ hI hC
              · obtain ⟨hI, hC⟩ := stStep_subsub B result none (some u) _ (outerEnd u) hres
                  rfl hsub rfl hwfn (le_trans (optOuter_ge _ _ hss) hcn)
                exact step result none _ _ _ hI hC
              · obtain ⟨hI, hC⟩ := stStep_subsub B result (some s) none _ (outerEnd s) hres
                  hsec rfl rfl hwfn hcn
                exact step result _ none _ _ hI hC
              · obtain ⟨hI, hC⟩ := stStep_subsub B result (some s) none _ (outerEnd s) hres
                  hsec rfl rfl hwfn (le_trans (optOuter_ge _ _ hss) hcn)
                exact step result _ none _ _ hI hC
              · obtain ⟨hI, hC⟩ := stStep_subsub B result (some s) (some u) _ (outerEnd u)
                  hres hsec hsub rfl hwfn hcn
                exact step result _ _ _ _ hI hC
              · simp only [optInv, Bool.and_eq_true] at hsub hss
                obtain ⟨hpw1, hpe1⟩ := midWf_push u ss (outerEnd s) hsub.1 hsub.2 hss.1
                obtain ⟨hI, hC⟩ := stStep_subsub B result (some s)
                  (some (pushContent u ss)) _ (outerEnd ss) hres hsec
                  (optInv_mk _ _ hpw1 (by rw [pushContent_kind]; exact hsub.2))
                  (by show outerEnd (pushContent u ss) = outerEnd ss
                      exact hpe1)
                  hwfn hcn
                exact step result _ _ _ _ hI hC
            · rw [if_neg hn3]
              rcases subsub with _ | ss
              · rcases sub with _ | u
                · rcases sec with _ | s
                  · simp only [stCursor, optOuter] at hcn
                    obtain ⟨hI, hC⟩ := stStep_push0 B result _ hres (inW.1 _ hcn)
                    exact step _ none none none _ hI (hC.trans inW.2)
                  · simp only [stCursor, optOuter] at hcn
                    obtain ⟨hI, hC⟩ := stStep_push1 B result s _ hres hsec (inW.1 _ hcn)
                    exact step result _ none none _ hI (hC.trans inW.2)
                · simp only [stCursor, optOuter] at hcn
                  obtain ⟨hI, hC⟩ := stStep_push2 B result sec u _ hres hsec hsub
                    (inW.1 _ hcn)
                  exact step result sec _ none _ hI (hC.trans inW.2)
              · simp only [stCursor, optOuter] at hcn
                obtain ⟨hI, hC⟩ := stStep_push3 B result sec sub ss _ hres hsec hsub hss
                  (inW.1 _ hcn)
                exact step result sec sub _ _ hI (hC.trans inW.2)
      · rw [if_neg hcmd]
        rcases loc with _ | l
        · rw [inWfNode] at hwfn
          simp at hwfn
        · have hwfn0 := hwfn
          rw [inWfNode] at hwfn0
          simp only [Bool.and_eq_true, decide_eq_true_eq] at hwfn0
          obtain ⟨⟨⟨⟨⟨hnh, hse⟩, ha1⟩, ha2⟩, hc1⟩, hc2⟩ := hwfn0
          have hkfalse : isHeadingKind kd = false := by
            rw [Bool.not_eq_true'] at hnh
            exact hnh
          have hszcontent : sizeOf content ≤ K := by
            simp only [List.cons.sizeOf_spec, LNode.mk.sizeOf_spec] at hsz
            omega
          obtain ⟨hmc', hbound'⟩ := ih content hszcontent l.startOff [] none none none none
            (by simp [stInv, midChain, optInv]) hc1
          have hn' : ∀ b, b ≤ l.startOff →
              midWfNode b (restructNode (LNode.mk kd nm (some l) args content)) = true := by
            intro b hb
            rw [restructNode, midWfNode]
            simp only [Bool.and_eq_true, decide_eq_true_eq]
            refine ⟨⟨⟨⟨hb, hse⟩, ha1⟩, ha2⟩, ?_⟩
            rw [hkfalse]
            simp only [Bool.false_eq_true, if_false, Bool.and_eq_true, decide_eq_true_eq]
            exact ⟨hmc', le_trans hbound' hc2⟩
          have houter' : outerEnd (restructNode (LNode.mk kd nm (some l) args content)) =
              l.endOff := by
            rw [restructNode]
            simp [outerEnd, hkfalse]
          rcases subsub with _ | ss
          · rcases sub with _ | u
            · rcases sec with _ | s
              · simp only [stCursor, optOuter] at hcn
                obtain ⟨hI, hC⟩ := stStep_push0 B result _ hres (hn' _ hcn)
                exact step _ none none none _ hI (hC.trans houter')
              · simp only [stCursor, optOuter] at hcn
                obtain ⟨hI, hC⟩ := stStep_push1 B result s _ hres hsec (hn' _ hcn)
                exact step result _ none none _ hI (hC.trans houter')
            · simp only [stCursor, optOuter] at hcn
              obtain ⟨hI, hC⟩ := stStep_push2 B result sec u _ hres hsec hsub (hn' _ hcn)
              exact step result sec _ none _ hI (hC.trans houter')
          · simp only [stCursor, optOuter] at hcn
            obtain ⟨hI, hC⟩ := stStep_push3 B result sec sub ss _ hres hsec hsub hss
              (hn' _ hcn)
            exact step result sec sub _ _ hI (hC.trans houter')

theorem updateSectionLocations_outWf :
    ∀ (cs : List LNode) (e : Nat), midChain e cs = true →
      outWfList (updateSectionLocations cs) = true := by
  intro cs
  induction cs with
  | nil => intro e _; rfl
  | cons c rest ih =>
    intro e h
    rw [midChain, Bool.and_eq_true] at h
    rw [updateSectionLocations, outWfList, Bool.and_eq_true]
    exact ⟨(updateSection_wf (sizeOf c) c le_rfl e h.1).1, ih (outerEnd c) h.2⟩

/-- C8 (amended): for every parser-output node list that is
well-formed in the sense of `inChain` (all nodes located with ordered,
left-to-right disjoint sibling spans, children inside parents, no
pre-existing heading kinds), the list produced by `restructureNodes`
followed by `updateSectionLocations` satisfies: every located node has
`start.offset <= end.offset`, every content child's span lies within
its parent's span, and every args child's span lies within its
parent's span **except** when the parent is a heading node - the
exemption forced by `C8_counterexample`, where a re-spanned heading's
args keep the command-token span outside the heading's recomputed
content hull. -/
theorem C8_span_invariant (nodes : List LNode) (h : inChain 0 nodes = true) :
    outWfList (parseLatexContent nodes) = true := by
  obtain ⟨hmid, _⟩ := restructGo_wf (sizeOf nodes) nodes le_rfl 0 [] none none none none
    (by simp [stInv, midChain, optInv]) h
  rw [parseLatexContent]
  exact updateSectionLocations_outWf (restructureNodes nodes) 0 hmid

/-- Witness for C8: the amended invariant applied to the concrete
parser output of `\section{A} text`, discharging the
well-formedness hypothesis by evaluation. -/
theorem C8_span_invariant_witness :
    inChain 0 [c8sectionCmd, c8textNode] = true ∧
      outWfList (parseLatexContent [c8sectionCmd, c8textNode]) = true :=
  ⟨by rfl, C8_span_invariant [c8sectionCmd, c8textNode] (by rfl)⟩
